import Mathlib

/-!
Shallow embedding of `core/src/unprocessed_packet_batches.rs`: the bounded
priority buffer with deduplication (`UnprocessedPacketBatches`), record
construction (`DeserializedPacket::new_internal`), the message locator
(`packet_message`) and the priority extractor (`get_priority`).

Machine integers are modelled as `Nat`; the only place where overflow matters
is the checked arithmetic in `packet_message`, where the `usize` bound is made
explicit.  Byte buffers are `List Nat`, 32-byte hashes are `Nat` (an abstract
digest value).  Code that lives in external crates rather than in the
repository (the `min_max_heap` heap primitives, `decode_shortu16_len`, the
compute-budget instruction processor, bincode deserialization and transaction
sanitization) is modelled from the specification; each such definition is
marked `Modelled from the spec:` in its doc comment.
-/

namespace SolanaBuffer

/-- Error kinds of record construction, from `DeserializedPacketError` in the
source.  Payloads that the claims never inspect (`bincode::Error`,
`SanitizeError` sub-reasons) are abstracted to a numeric tag. -/
inductive DeserializedPacketError where
  | ShortVecError
  | DeserializationError (detail : Nat)
  | SignatureOverflowed (sig_size : Nat)
  | SanitizeError (sub : Nat)
  | PrioritizationFailure
  deriving DecidableEq

/-- Packet metadata, from `solana_perf::packet::Meta`: the fields the core
reads (`sender_stake`, `is_simple_vote_tx`). -/
structure Meta where
  sender_stake : Nat
  is_simple_vote_tx : Bool
  deriving DecidableEq

/-- A wire packet: the byte buffer returned by `packet.data()` plus metadata. -/
structure Packet where
  data : List Nat
  meta : Meta
  deriving DecidableEq

/-- The `usize` is 64-bit on the target platform. -/
def USIZE_LIMIT : Nat := 2 ^ 64

/-- The `size_of::<Signature>()`: a signature is 64 bytes. -/
def SIGNATURE_SIZE : Nat := 64

/-- The `checked_mul` on `usize`. -/
def checked_mul (a b : Nat) : Option Nat :=
  if a * b < USIZE_LIMIT then some (a * b) else none

/-- The `checked_add` on `usize`. -/
def checked_add (a b : Nat) : Option Nat :=
  if a + b < USIZE_LIMIT then some (a + b) else none

/-- The `data.get(i..)` on a slice: `some` of the suffix when `i ≤ data.length`. -/
def sliceFrom (data : List Nat) (i : Nat) : Option (List Nat) :=
  if i ≤ data.length then some (data.drop i) else none

/-- Modelled from the spec: `solana_sdk::short_vec::decode_shortu16_len` is not
part of the repository.  Per §6, a short-u16 is a little-endian encoding of a
16-bit unsigned integer in 1–3 bytes, 7 bits per byte, high bit as
continuation.  Returns `(value, bytes consumed)`, or `none` when the prefix
cannot be decoded (buffer exhausted before a terminating byte, a third byte
that still continues, or a value exceeding 16 bits).  The source crate's
rejection of non-minimal encodings is not modelled; no claim depends on it. -/
def decode_shortu16_len (data : List Nat) : Option (Nat × Nat) :=
  match data with
  | [] => none
  | b0 :: rest0 =>
    if b0 < 128 then some (b0, 1)
    else
      match rest0 with
      | [] => none
      | b1 :: rest1 =>
        if b1 < 128 then some (b0 % 128 + 128 * b1, 2)
        else
          match rest1 with
          | [] => none
          | b2 :: _ =>
            if b2 < 128 ∧ b0 % 128 + 128 * (b1 % 128) + 16384 * b2 ≤ 65535 then
              some (b0 % 128 + 128 * (b1 % 128) + 16384 * b2, 3)
            else none

/-- The `packet_message` from the source: decode the signature-count prefix, then
compute `sig_len * size_of::<Signature>() + sig_size` with checked arithmetic
and return the suffix of the buffer starting there. -/
def packet_message (packet : Packet) : Except DeserializedPacketError (List Nat) :=
  match decode_shortu16_len packet.data with
  | none => .error .ShortVecError
  | some (sig_len, sig_size) =>
    match (checked_mul sig_len SIGNATURE_SIZE).bind
        (fun v => (checked_add v sig_size).bind (fun s => sliceFrom packet.data s)) with
    | some msg => .ok msg
    | none => .error (.SignatureOverflowed sig_size)

/-- Modelled from the spec: the compute-budget directive set of §4.3 (the
`ComputeBudgetInstruction` enum lives outside the repository). -/
inductive ComputeBudgetDirective where
  | setComputeUnitLimit (units : Nat)
  | setComputeUnitPrice (micro_lamports : Nat)
  | requestHeapFrame (bytes : Nat)
  deriving DecidableEq

/-- Modelled from the spec: one compiled instruction of a sanitized message as
the priority extractor sees it — either a compute-budget directive or an
instruction of any other program (abstracted to a tag). -/
inductive InstructionModel where
  | computeBudget (d : ComputeBudgetDirective)
  | other (tag : Nat)
  deriving DecidableEq

/-- The sanitized message: the instruction sequence the extractor scans. -/
structure SanitizedVersionedMessage where
  instructions : List InstructionModel
  deriving DecidableEq

/-- A sanitized versioned transaction (content beyond what the claims touch is
abstracted away). -/
structure SanitizedVersionedTransaction where
  num_signatures : Nat
  message : SanitizedVersionedMessage
  deriving DecidableEq

/-- Heap-frame lower bound (32 KiB). -/
def MIN_HEAP_FRAME_BYTES : Nat := 32 * 1024

/-- Heap-frame upper bound (256 KiB). -/
def MAX_HEAP_FRAME_BYTES : Nat := 256 * 1024

/-- Default compute units granted per instruction. -/
def DEFAULT_INSTRUCTION_COMPUTE_UNIT_LIMIT : Nat := 200000

/-- Micro-units per unit: the `DENOM` of the priority formula. -/
def MICRO_LAMPORTS_PER_LAMPORT : Nat := 1000000

/-- Accumulator of `ComputeBudget::process_instructions`: the at-most-once
directives seen so far. -/
structure ComputeBudgetAcc where
  requested_units : Option Nat
  requested_heap_size : Option Nat
  prioritization_fee : Option Nat
  deriving DecidableEq

/-- Modelled from the spec: processing one recognized directive — a duplicate
of an already-seen directive kind is an error (§4.3). -/
def processDirective (acc : ComputeBudgetAcc) (d : ComputeBudgetDirective) :
    Option ComputeBudgetAcc :=
  match d with
  | .setComputeUnitLimit u =>
    if acc.requested_units.isSome then none
    else some { acc with requested_units := some u }
  | .setComputeUnitPrice p =>
    if acc.prioritization_fee.isSome then none
    else some { acc with prioritization_fee := some p }
  | .requestHeapFrame b =>
    if acc.requested_heap_size.isSome then none
    else some { acc with requested_heap_size := some b }

/-- The compute-budget directives of a message, in order. -/
def budgetDirectives (m : SanitizedVersionedMessage) : List ComputeBudgetDirective :=
  m.instructions.filterMap fun i =>
    match i with
    | .computeBudget d => some d
    | .other _ => none

/-- The number of non-compute-budget instructions (drives the default unit
count). -/
def nonBudgetCount (m : SanitizedVersionedMessage) : Nat :=
  (m.instructions.filter fun i =>
    match i with
    | .computeBudget _ => false
    | .other _ => true).length

/-- Modelled from the spec: the priority formula of §4.3 — `(price_per_cu *
units) / DENOM`, priority 0 when no price directive is present. -/
def accPriority (m : SanitizedVersionedMessage) (acc : ComputeBudgetAcc) : Nat :=
  match acc.prioritization_fee with
  | none => 0
  | some price =>
    price * (acc.requested_units.getD
      (DEFAULT_INSTRUCTION_COMPUTE_UNIT_LIMIT * nonBudgetCount m)) /
      MICRO_LAMPORTS_PER_LAMPORT

/-- Modelled from the spec: `get_priority` delegates to
`ComputeBudget::process_instructions` (external crate).  Per §4.3: scan the
compute-budget directives rejecting duplicates of a kind, validate a requested
heap frame against the fixed bounds and 1024-byte alignment, and yield the
priority (0 when no price directive is present).  `none` is the
`PrioritizationFailure` outcome. -/
def get_priority (message : SanitizedVersionedMessage) : Option Nat :=
  match (budgetDirectives message).foldlM processDirective ⟨none, none, none⟩ with
  | none => none
  | some acc =>
    match acc.requested_heap_size with
    | some bytes =>
      if bytes < MIN_HEAP_FRAME_BYTES ∨ MAX_HEAP_FRAME_BYTES < bytes ∨ bytes % 1024 ≠ 0
      then none
      else some (accPriority message acc)
    | none => some (accPriority message acc)

/-- Modelled from the spec: bincode deserialization of a `VersionedTransaction`
(external crate).  Only the pieces the core reads are kept: the signature
count and the message bytes located per §4.1/§6. -/
structure VersionedTransaction where
  num_signatures : Nat
  message_bytes : List Nat
  deriving DecidableEq

/-- Modelled from the spec: `packet.deserialize_slice(..)` — §4.1's decoder,
locating `n` signatures after the short-u16 prefix and the message after them.
Failures map to `DeserializationError` (the bincode error branch). -/
def deserialize_versioned_transaction (p : Packet) :
    Except DeserializedPacketError VersionedTransaction :=
  match decode_shortu16_len p.data with
  | none => .error (.DeserializationError 0)
  | some (n, sz) =>
    if n * SIGNATURE_SIZE + sz ≤ p.data.length then
      .ok ⟨n, p.data.drop (n * SIGNATURE_SIZE + sz)⟩
    else .error (.DeserializationError 1)

/-- Modelled from the spec: the wire encoding of one compiled instruction is
not specified, so each message byte is read as one instruction: residue 1, 2, 3
mod 4 select the three compute-budget directive kinds (argument in the
remaining bits, heap frames in KiB granularity), anything else is a
non-budget instruction. -/
def decodeInstructionByte (b : Nat) : InstructionModel :=
  match b % 4 with
  | 1 => .computeBudget (.setComputeUnitLimit (b / 4))
  | 2 => .computeBudget (.setComputeUnitPrice (b / 4))
  | 3 => .computeBudget (.requestHeapFrame (b / 4 * 1024))
  | _ => .other (b / 4)

/-- Modelled from the spec: `SanitizedVersionedTransaction::try_from` (§4.2).
Of the structural checks, the one expressible in this model is the non-empty
signature list; the rest concern the header and account-key fields that are
abstracted away. -/
def sanitize_versioned_transaction (vt : VersionedTransaction) :
    Except DeserializedPacketError SanitizedVersionedTransaction :=
  if vt.num_signatures = 0 then .error (.SanitizeError 0)
  else .ok ⟨vt.num_signatures, ⟨vt.message_bytes.map decodeInstructionByte⟩⟩

/-- The `Message::hash_raw_message`: the 32-byte digest is modelled as an injective
`Nat`-valued function of the message bytes (byte-identical messages hash
equal, which is all the buffer relies on). -/
def hash_raw_message (bytes : List Nat) : Nat :=
  bytes.foldl (fun a b => a * 256 + b % 256 + 1) 7

/-- The immutable record: original packet, sanitized transaction, message
hash, is-vote flag, priority — `ImmutableDeserializedPacket` in the source. -/
structure ImmutableDeserializedPacket where
  original_packet : Packet
  transaction : SanitizedVersionedTransaction
  message_hash : Nat
  is_simple_vote : Bool
  priority : Nat
  deriving DecidableEq

/-- The `ImmutableDeserializedPacket::sender_stake`: read off the original
packet's metadata. -/
def ImmutableDeserializedPacket.sender_stake (p : ImmutableDeserializedPacket) : Nat :=
  p.original_packet.meta.sender_stake

/-- The envelope: one immutable record plus the mutable `forwarded` flag —
`DeserializedPacket` in the source. -/
structure DeserializedPacket where
  immutable_section : ImmutableDeserializedPacket
  forwarded : Bool
  deriving DecidableEq

instance : Inhabited DeserializedPacket :=
  ⟨⟨⟨⟨[], ⟨0, false⟩⟩, ⟨0, ⟨[]⟩⟩, 0, false, 0⟩, false⟩⟩

/-- The `DeserializedPacket::new_internal`: compose decoder, sanitizer, message
locator, hash and priority; on success the envelope starts with
`forwarded := false`. -/
def DeserializedPacket.new_internal (packet : Packet) (priority : Option Nat) :
    Except DeserializedPacketError DeserializedPacket :=
  match deserialize_versioned_transaction packet with
  | .error e => .error e
  | .ok versioned_transaction =>
    match sanitize_versioned_transaction versioned_transaction with
    | .error e => .error e
    | .ok sanitized_transaction =>
      match packet_message packet with
      | .error e => .error e
      | .ok message_bytes =>
        let message_hash := hash_raw_message message_bytes
        let is_simple_vote := packet.meta.is_simple_vote_tx
        match
          (match priority with
           | some pr => some pr
           | none => get_priority sanitized_transaction.message) with
        | none => .error .PrioritizationFailure
        | some priority =>
          .ok
            { immutable_section :=
                { original_packet := packet
                  transaction := sanitized_transaction
                  message_hash := message_hash
                  is_simple_vote := is_simple_vote
                  priority := priority }
              forwarded := false }

/-- The `DeserializedPacket::new`. -/
def DeserializedPacket.new (packet : Packet) :
    Except DeserializedPacketError DeserializedPacket :=
  DeserializedPacket.new_internal packet none

/-- The `forwarded` flag of a construction outcome (`false` on failure). -/
def forwardedFlag : Except DeserializedPacketError DeserializedPacket → Bool
  | .ok dp => dp.forwarded
  | .error _ => false

/-- The ordering of the source's `Ord for ImmutableDeserializedPacket`:
compare by `priority`, break ties by `sender_stake`; `pktLe a b` is
`a.cmp(b) ≠ Greater`. -/
def pktLe (a b : ImmutableDeserializedPacket) : Prop :=
  a.priority < b.priority ∨ (a.priority = b.priority ∧ a.sender_stake ≤ b.sender_stake)

instance (a b : ImmutableDeserializedPacket) : Decidable (pktLe a b) := by
  unfold pktLe; infer_instance

theorem pktLe_refl (a : ImmutableDeserializedPacket) : pktLe a a :=
  Or.inr ⟨rfl, le_refl _⟩

theorem pktLe_trans {a b c : ImmutableDeserializedPacket} :
    pktLe a b → pktLe b c → pktLe a c := by
  unfold pktLe; omega

theorem pktLe_total (a b : ImmutableDeserializedPacket) : pktLe a b ∨ pktLe b a := by
  unfold pktLe; omega

theorem pktLe_of_not {a b : ImmutableDeserializedPacket} (h : ¬ pktLe a b) : pktLe b a := by
  unfold pktLe at *; omega

/-! ### The hash index

`message_hash_to_transaction : HashMap<Hash, DeserializedPacket>` is modelled
as an association list with the `HashMap` operations the source uses:
membership test, lookup, removal, and replacing insertion. -/

/-- The association-list model of the hash index. -/
abbrev HashIndex : Type := List (Nat × DeserializedPacket)

/-- The `HashMap::get`: the value at the first (under unique keys: the only)
entry for the key. -/
def alLookup (k : Nat) : HashIndex → Option DeserializedPacket
  | [] => none
  | kv :: t => if kv.1 = k then some kv.2 else alLookup k t

/-- The `HashMap::contains_key`. -/
def alContains (k : Nat) (l : HashIndex) : Bool :=
  (alLookup k l).isSome

/-- The `HashMap::remove` (the state after removal). -/
def alRemove (k : Nat) : HashIndex → HashIndex
  | [] => []
  | kv :: t => if kv.1 = k then alRemove k t else kv :: alRemove k t

/-- The `HashMap::insert` (replacing any existing entry for the key). -/
def alInsert (k : Nat) (v : DeserializedPacket) (l : HashIndex) : HashIndex :=
  (k, v) :: alRemove k l

/-- The key list of the index. -/
def alKeys (l : HashIndex) : List Nat := l.map (·.1)

theorem alLookup_eq_none (k : Nat) (l : HashIndex) :
    alLookup k l = none ↔ k ∉ alKeys l := by
  induction l with
  | nil => simp [alLookup, alKeys]
  | cons kv t ih =>
    rw [alLookup]
    by_cases h : kv.1 = k
    · simp [alKeys, h]
    · rw [if_neg h, ih]
      simp only [alKeys, List.map_cons, List.mem_cons, not_or]
      exact ⟨fun hk => ⟨fun hh => h hh.symm, hk⟩, fun hk => hk.2⟩

theorem alLookup_mem {k : Nat} {v : DeserializedPacket} {l : HashIndex}
    (h : alLookup k l = some v) : (k, v) ∈ l := by
  induction l with
  | nil => simp [alLookup] at h
  | cons kv t ih =>
    by_cases hk : kv.1 = k
    · simp only [alLookup, if_pos hk, Option.some.injEq] at h
      subst h
      rw [← hk]
      exact List.mem_cons_self ..
    · simp only [alLookup, if_neg hk] at h
      exact List.mem_cons_of_mem _ (ih h)

theorem mem_keys_of_lookup {k : Nat} {v : DeserializedPacket} {l : HashIndex}
    (h : alLookup k l = some v) : k ∈ alKeys l := by
  by_contra hc
  rw [← alLookup_eq_none] at hc
  rw [hc] at h
  cases h

theorem alRemove_keys (k : Nat) (l : HashIndex) :
    alKeys (alRemove k l) = (alKeys l).filter (fun x => decide (x ≠ k)) := by
  induction l with
  | nil => rfl
  | cons kv t ih =>
    by_cases h : kv.1 = k <;> simp [alRemove, alKeys, List.filter_cons, h] at ih ⊢ <;>
      simpa [alKeys] using ih

theorem alRemove_of_not_mem {k : Nat} {l : HashIndex} (h : k ∉ alKeys l) :
    alRemove k l = l := by
  induction l with
  | nil => rfl
  | cons kv t ih =>
    simp only [alKeys, List.map_cons, List.mem_cons] at h
    push_neg at h
    have h1 : kv.1 ≠ k := fun hh => h.1 hh.symm
    rw [alRemove, if_neg h1, ih (by simpa [alKeys] using h.2)]

theorem alLookup_remove_self (k : Nat) (l : HashIndex) :
    alLookup k (alRemove k l) = none := by
  rw [alLookup_eq_none, alRemove_keys]
  simp

theorem alLookup_remove_ne {k k' : Nat} (h : k ≠ k') (l : HashIndex) :
    alLookup k (alRemove k' l) = alLookup k l := by
  induction l with
  | nil => rfl
  | cons kv t ih =>
    by_cases hk : kv.1 = k'
    · rw [alRemove, if_pos hk, ih, alLookup, if_neg (by rw [hk]; exact fun hh => h hh.symm)]
    · rw [alRemove, if_neg hk]
      by_cases hkk : kv.1 = k <;> simp [alLookup, hkk, ih]

theorem alLookup_insert_self (k : Nat) (v : DeserializedPacket) (l : HashIndex) :
    alLookup k (alInsert k v l) = some v := by
  simp [alInsert, alLookup]

theorem alLookup_insert_ne {k k' : Nat} (h : k ≠ k') (v : DeserializedPacket)
    (l : HashIndex) : alLookup k (alInsert k' v l) = alLookup k l := by
  show (if k' = k then some v else alLookup k (alRemove k' l)) = _
  rw [if_neg (fun hh => h hh.symm)]
  exact alLookup_remove_ne h l

theorem alInsert_keys (k : Nat) (v : DeserializedPacket) (l : HashIndex) :
    alKeys (alInsert k v l) = k :: (alKeys l).filter (fun x => decide (x ≠ k)) := by
  simp only [alInsert, alKeys, List.map_cons]
  rw [show List.map (fun x => x.1) (alRemove k l) = alKeys (alRemove k l) from rfl,
    alRemove_keys]
  rfl

theorem alRemove_length_of_nodup {k : Nat} {l : HashIndex}
    (hnd : (alKeys l).Nodup) (hmem : k ∈ alKeys l) :
    (alRemove k l).length + 1 = l.length := by
  induction l with
  | nil => simp [alKeys] at hmem
  | cons kv t ih =>
    simp only [alKeys, List.map_cons, List.nodup_cons, List.mem_cons] at hnd hmem
    rcases hmem with hmem | hmem
    · rw [alRemove, if_pos hmem.symm,
        alRemove_of_not_mem (show k ∉ alKeys t by rw [hmem]; exact hnd.1)]
      simp
    · have hne : kv.1 ≠ k := fun hh => hnd.1 (hh ▸ hmem)
      rw [alRemove, if_neg hne]
      have := ih hnd.2 hmem
      simp only [List.length_cons]
      omega

/-! ### The double-ended priority heap

`min_max_heap::MinMaxHeap` is an external crate, so it is modelled from the
spec (§3, §4.5, glossary): a container of records supporting `push`,
`pop_max` (remove some maximal element under the `(priority, sender_stake)`
order) and `push_pop_min` (reject an incoming element that is ≤ the current
minimum, otherwise swap it for a minimal element).  The internal array order
is unspecified in the source, so elements are kept as a plain list; ties are
broken by the scan below, matching the spec's "broken by heap implementation
arbitrarily".  The allocation capacity of the backing vector is modelled as
the construction capacity (the buffer never holds more elements than that, so
the vector never reallocates). -/

/-- Last-encountered minimal element of `x :: xs` under `pktLe`. -/
def selMin (x : ImmutableDeserializedPacket) (xs : List ImmutableDeserializedPacket) :
    ImmutableDeserializedPacket :=
  xs.foldl (fun m y => if pktLe y m then y else m) x

/-- Last-encountered maximal element of `x :: xs` under `pktLe`. -/
def selMax (x : ImmutableDeserializedPacket) (xs : List ImmutableDeserializedPacket) :
    ImmutableDeserializedPacket :=
  xs.foldl (fun m y => if pktLe m y then y else m) x

theorem selMin_mem (x : ImmutableDeserializedPacket)
    (xs : List ImmutableDeserializedPacket) : selMin x xs ∈ x :: xs := by
  induction xs generalizing x with
  | nil => simp [selMin]
  | cons y ys ih =>
    simp only [selMin, List.foldl_cons]
    by_cases h : pktLe y x
    · rw [if_pos h]
      have := ih y
      simp only [selMin] at this
      rcases List.mem_cons.mp this with h' | h'
      · exact List.mem_cons.mpr (Or.inr (List.mem_cons.mpr (Or.inl h')))
      · exact List.mem_cons.mpr (Or.inr (List.mem_cons.mpr (Or.inr h')))
    · rw [if_neg h]
      have := ih x
      simp only [selMin] at this
      rcases List.mem_cons.mp this with h' | h'
      · exact List.mem_cons.mpr (Or.inl h')
      · exact List.mem_cons.mpr (Or.inr (List.mem_cons.mpr (Or.inr h')))

theorem selMin_le (x : ImmutableDeserializedPacket)
    (xs : List ImmutableDeserializedPacket) :
    ∀ y ∈ x :: xs, pktLe (selMin x xs) y := by
  induction xs generalizing x with
  | nil =>
    intro y hy
    simp only [List.mem_cons, List.not_mem_nil, or_false] at hy
    rw [hy]
    exact pktLe_refl _
  | cons z zs ih =>
    intro y hy
    simp only [selMin, List.foldl_cons]
    rcases List.mem_cons.mp hy with hy | hy
    · subst hy
      by_cases h : pktLe z y
      · rw [if_pos h]
        exact pktLe_trans (ih z z (List.mem_cons_self ..)) h
      · rw [if_neg h]
        exact ih y y (List.mem_cons_self ..)
    · rcases List.mem_cons.mp hy with hy | hy
      · subst hy
        by_cases h : pktLe y x
        · rw [if_pos h]
          exact ih y y (List.mem_cons_self ..)
        · rw [if_neg h]
          exact pktLe_trans (ih x x (List.mem_cons_self ..)) (pktLe_of_not h)
      · by_cases h : pktLe z x
        · rw [if_pos h]
          exact ih z y (List.mem_cons_of_mem _ hy)
        · rw [if_neg h]
          exact ih x y (List.mem_cons_of_mem _ hy)

theorem selMax_mem (x : ImmutableDeserializedPacket)
    (xs : List ImmutableDeserializedPacket) : selMax x xs ∈ x :: xs := by
  induction xs generalizing x with
  | nil => simp [selMax]
  | cons y ys ih =>
    simp only [selMax, List.foldl_cons]
    by_cases h : pktLe x y
    · rw [if_pos h]
      have := ih y
      simp only [selMax] at this
      rcases List.mem_cons.mp this with h' | h'
      · exact List.mem_cons.mpr (Or.inr (List.mem_cons.mpr (Or.inl h')))
      · exact List.mem_cons.mpr (Or.inr (List.mem_cons.mpr (Or.inr h')))
    · rw [if_neg h]
      have := ih x
      simp only [selMax] at this
      rcases List.mem_cons.mp this with h' | h'
      · exact List.mem_cons.mpr (Or.inl h')
      · exact List.mem_cons.mpr (Or.inr (List.mem_cons.mpr (Or.inr h')))

theorem le_selMax (x : ImmutableDeserializedPacket)
    (xs : List ImmutableDeserializedPacket) :
    ∀ y ∈ x :: xs, pktLe y (selMax x xs) := by
  induction xs generalizing x with
  | nil =>
    intro y hy
    simp only [List.mem_cons, List.not_mem_nil, or_false] at hy
    rw [hy]
    exact pktLe_refl _
  | cons z zs ih =>
    intro y hy
    simp only [selMax, List.foldl_cons]
    rcases List.mem_cons.mp hy with hy | hy
    · subst hy
      by_cases h : pktLe y z
      · rw [if_pos h]
        exact pktLe_trans h (ih z z (List.mem_cons_self ..))
      · rw [if_neg h]
        exact ih y y (List.mem_cons_self ..)
    · rcases List.mem_cons.mp hy with hy | hy
      · subst hy
        by_cases h : pktLe x y
        · rw [if_pos h]
          exact ih y y (List.mem_cons_self ..)
        · rw [if_neg h]
          exact pktLe_trans (pktLe_of_not h) (ih x x (List.mem_cons_self ..))
      · by_cases h : pktLe x z
        · rw [if_pos h]
          exact ih z y (List.mem_cons_of_mem _ hy)
        · rw [if_neg h]
          exact ih x y (List.mem_cons_of_mem _ hy)

/-- The heap model: element list (internal order unspecified) plus the
allocation capacity reported by `MinMaxHeap::capacity`. -/
structure MinMaxHeap where
  elems : List ImmutableDeserializedPacket
  cap : Nat
  deriving DecidableEq

/-- The `MinMaxHeap::with_capacity`. -/
def MinMaxHeap.with_capacity (c : Nat) : MinMaxHeap := ⟨[], c⟩

/-- The `MinMaxHeap::len`. -/
def MinMaxHeap.len (h : MinMaxHeap) : Nat := h.elems.length

/-- The `MinMaxHeap::is_empty`. -/
def MinMaxHeap.is_empty (h : MinMaxHeap) : Bool := h.elems.isEmpty

/-- The `MinMaxHeap::clear` (empties the elements, keeps the allocation). -/
def MinMaxHeap.clear (h : MinMaxHeap) : MinMaxHeap := ⟨[], h.cap⟩

/-- The `MinMaxHeap::push`.  The element count never exceeds `cap` at any call
site in the source, so the backing vector never grows. -/
def MinMaxHeap.push (h : MinMaxHeap) (e : ImmutableDeserializedPacket) : MinMaxHeap :=
  ⟨e :: h.elems, h.cap⟩

/-- Modelled from the spec (§4.5): `MinMaxHeap::push_pop_min` — an incoming
element less than or equal to the current minimum is returned unchanged with
the heap untouched; otherwise a minimal element is swapped out for the
incoming one.  On an empty heap the element comes straight back. -/
def MinMaxHeap.push_pop_min (h : MinMaxHeap) (e : ImmutableDeserializedPacket) :
    ImmutableDeserializedPacket × MinMaxHeap :=
  match h.elems with
  | [] => (e, h)
  | x :: xs =>
    let m := selMin x xs
    if pktLe e m then (e, h) else (m, ⟨e :: (x :: xs).erase m, h.cap⟩)

/-- Modelled from the spec: `MinMaxHeap::pop_max` removes and returns some
maximal element. -/
def MinMaxHeap.pop_max (h : MinMaxHeap) :
    Option (ImmutableDeserializedPacket × MinMaxHeap) :=
  match h.elems with
  | [] => none
  | x :: xs =>
    let m := selMax x xs
    some (m, ⟨(x :: xs).erase m, h.cap⟩)

/-! ### The bounded priority buffer -/

/-- The `UnprocessedPacketBatches`: heap over records, hash index over envelopes,
and the capacity bound `batch_limit`. -/
structure UnprocessedPacketBatches where
  packet_priority_queue : MinMaxHeap
  message_hash_to_transaction : HashIndex
  batch_limit : Nat
  deriving DecidableEq

namespace UnprocessedPacketBatches

/-- The `UnprocessedPacketBatches::with_capacity`. -/
def with_capacity (capacity : Nat) : UnprocessedPacketBatches :=
  ⟨MinMaxHeap.with_capacity capacity, [], capacity⟩

/-- The `UnprocessedPacketBatches::clear`. -/
def clear (b : UnprocessedPacketBatches) : UnprocessedPacketBatches :=
  { b with
    packet_priority_queue := b.packet_priority_queue.clear
    message_hash_to_transaction := [] }

/-- The `UnprocessedPacketBatches::len` (the heap's size). -/
def len (b : UnprocessedPacketBatches) : Nat := b.packet_priority_queue.len

/-- The `UnprocessedPacketBatches::is_empty`. -/
def is_empty (b : UnprocessedPacketBatches) : Bool := b.packet_priority_queue.is_empty

/-- The `UnprocessedPacketBatches::capacity` (the heap's capacity). -/
def capacity (b : UnprocessedPacketBatches) : Nat := b.packet_priority_queue.cap

/-- The `push_internal`: push the record into the heap and the envelope into the
index under its own message hash. -/
def push_internal (b : UnprocessedPacketBatches) (deserialized_packet : DeserializedPacket) :
    UnprocessedPacketBatches :=
  { b with
    packet_priority_queue :=
      b.packet_priority_queue.push deserialized_packet.immutable_section
    message_hash_to_transaction :=
      alInsert deserialized_packet.immutable_section.message_hash deserialized_packet
        b.message_hash_to_transaction }

/-- The `push_pop_min`: heap-level push-pop-min, then reconcile the index.  When
the popped record is not the incoming one, the source unwraps the index
removal; that unwrap cannot fail in an invariant-respecting state, and the
unreachable `none` case is modelled by returning the incoming envelope. -/
def push_pop_min (b : UnprocessedPacketBatches) (deserialized_packet : DeserializedPacket) :
    DeserializedPacket × UnprocessedPacketBatches :=
  let pr := b.packet_priority_queue.push_pop_min deserialized_packet.immutable_section
  if pr.1.message_hash ≠ deserialized_packet.immutable_section.message_hash then
    let removed_min :=
      (alLookup pr.1.message_hash b.message_hash_to_transaction).getD deserialized_packet
    (removed_min,
      { b with
        packet_priority_queue := pr.2
        message_hash_to_transaction :=
          alInsert deserialized_packet.immutable_section.message_hash deserialized_packet
            (alRemove pr.1.message_hash b.message_hash_to_transaction) })
  else
    (deserialized_packet, { b with packet_priority_queue := pr.2 })

/-- The `UnprocessedPacketBatches::push`: duplicate hashes are a no-op returning
`None`; a full buffer evicts via `push_pop_min`; otherwise insert. -/
def push (b : UnprocessedPacketBatches) (deserialized_packet : DeserializedPacket) :
    Option DeserializedPacket × UnprocessedPacketBatches :=
  if alContains deserialized_packet.immutable_section.message_hash
      b.message_hash_to_transaction then
    (none, b)
  else if b.len = b.batch_limit then
    let pr := b.push_pop_min deserialized_packet
    (some pr.1, pr.2)
  else
    (none, b.push_internal deserialized_packet)

/-- The `insert_batch`: push each envelope, counting the `Some` returns. -/
def insert_batch (b : UnprocessedPacketBatches) (deserialized_packets : List DeserializedPacket) :
    Nat × UnprocessedPacketBatches :=
  deserialized_packets.foldl
    (fun acc dp =>
      let pr := acc.2.push dp
      (if pr.1.isSome then acc.1 + 1 else acc.1, pr.2))
    (0, b)

/-- The `pop_max`: pop a maximal record from the heap and remove its index entry.
The source unwraps the removal; the unreachable missing-entry case surfaces
here as a `none` first component with the heap already popped. -/
def pop_max (b : UnprocessedPacketBatches) :
    Option DeserializedPacket × UnprocessedPacketBatches :=
  match b.packet_priority_queue.pop_max with
  | none => (none, b)
  | some (m, q') =>
    (alLookup m.message_hash b.message_hash_to_transaction,
      { b with
        packet_priority_queue := q'
        message_hash_to_transaction :=
          alRemove m.message_hash b.message_hash_to_transaction })

/-- The iterated `pop_max` of `pop_max_n` (`std::iter::from_fn … take`).  The
source unwraps each pop; the unreachable failing pop stops the iteration
here. -/
def pop_max_go : Nat → UnprocessedPacketBatches →
    List DeserializedPacket × UnprocessedPacketBatches
  | 0, b => ([], b)
  | n + 1, b =>
    match b.pop_max with
    | (some dp, b') =>
      let pr := pop_max_go n b'
      (dp :: pr.1, pr.2)
    | (none, b') => ([], b')

/-- The `pop_max_n`: `None` on an empty buffer (even for `n = 0`), otherwise
`min(len, n)` pops. -/
def pop_max_n (b : UnprocessedPacketBatches) (n : Nat) :
    Option (List DeserializedPacket) × UnprocessedPacketBatches :=
  if b.is_empty then (none, b)
  else
    let pr := pop_max_go (min b.len n) b
    (some pr.1, pr.2)

end UnprocessedPacketBatches

/-- The per-element body of `retain`: drain the heap, and for each record
look up its index entry, apply the predicate to the (mutable) envelope,
drop the entry when the predicate rejects it, and keep the record in the
rebuilt heap otherwise.  Returns (rebuilt heap elements, final index, the
trace of envelopes the predicate was applied to).  The source panics on a
missing entry ("must exist to be consistent"); that case is unreachable in an
invariant-respecting state and is modelled by skipping the record. -/
def retainGo (f : DeserializedPacket → DeserializedPacket × Bool) :
    List ImmutableDeserializedPacket → HashIndex →
    List ImmutableDeserializedPacket × HashIndex × List DeserializedPacket
  | [], idx => ([], idx, [])
  | m :: rest, idx =>
    match alLookup m.message_hash idx with
    | none => retainGo f rest idx
    | some dp =>
      let fr := f dp
      let idx' :=
        if fr.2 then alInsert m.message_hash fr.1 idx
        else alRemove m.message_hash idx
      let pr := retainGo f rest idx'
      (if fr.2 then m :: pr.1 else pr.1, pr.2.1, dp :: pr.2.2)

namespace UnprocessedPacketBatches

/-- The `UnprocessedPacketBatches::retain`.  The Rust predicate receives `&mut
DeserializedPacket` and returns `bool`; it is modelled as a function returning
the updated envelope together with the verdict.  The rebuilt heap keeps the
model's allocation capacity (the real reallocation behaviour of `collect` is
an allocator detail outside this model). -/
def retain (b : UnprocessedPacketBatches)
    (f : DeserializedPacket → DeserializedPacket × Bool) : UnprocessedPacketBatches :=
  let pr := retainGo f b.packet_priority_queue.elems b.message_hash_to_transaction
  { b with
    packet_priority_queue := ⟨pr.1, b.packet_priority_queue.cap⟩
    message_hash_to_transaction := pr.2.1 }

/-- The trace of envelopes `retain`'s predicate is invoked on, in invocation
order. -/
def retainTrace (b : UnprocessedPacketBatches)
    (f : DeserializedPacket → DeserializedPacket × Bool) : List DeserializedPacket :=
  (retainGo f b.packet_priority_queue.elems b.message_hash_to_transaction).2.2

end UnprocessedPacketBatches

/-- The `UnprocessedPacketBatches::from_iter`: build with the given capacity and
push every element, discarding returns. -/
def UnprocessedPacketBatches.from_iter (dps : List DeserializedPacket) (capacity : Nat) :
    UnprocessedPacketBatches :=
  dps.foldl (fun b dp => (b.push dp).2) (UnprocessedPacketBatches.with_capacity capacity)

/-! ### The buffer invariants (spec §3, "Invariants of B") -/

/-- The message hashes of the heap's records, in heap order. -/
def queueHashes (b : UnprocessedPacketBatches) : List Nat :=
  b.packet_priority_queue.elems.map fun m => m.message_hash

/-- Invariants 1–3 and 5 of the spec, plus the heap/index record coherence
the source relies on for its `unwrap`s: heap and index have the same size;
heap hashes and index keys agree as multisets; hashes are unique; every index
entry is keyed by its envelope's own hash; every heap record is exactly the
`immutable_section` of the envelope indexed under its hash; and the size is
bounded by `batch_limit`. -/
def Inv (b : UnprocessedPacketBatches) : Prop :=
  b.packet_priority_queue.elems.length = b.message_hash_to_transaction.length ∧
  (queueHashes b).Perm (alKeys b.message_hash_to_transaction) ∧
  (queueHashes b).Nodup ∧
  (∀ kv ∈ b.message_hash_to_transaction, kv.2.immutable_section.message_hash = kv.1) ∧
  (∀ m ∈ b.packet_priority_queue.elems,
    (alLookup m.message_hash b.message_hash_to_transaction).map
      (fun dp => dp.immutable_section) = some m) ∧
  b.packet_priority_queue.elems.length ≤ b.batch_limit

instance (b : UnprocessedPacketBatches) : Decidable (Inv b) := by
  unfold Inv; infer_instance

theorem inv_with_capacity (c : Nat) : Inv (UnprocessedPacketBatches.with_capacity c) := by
  refine ⟨rfl, .nil, .nil, ?_, ?_, by simp [UnprocessedPacketBatches.with_capacity,
    MinMaxHeap.with_capacity]⟩ <;> simp [UnprocessedPacketBatches.with_capacity,
      MinMaxHeap.with_capacity]

theorem inv_clear (b : UnprocessedPacketBatches) : Inv b.clear := by
  refine ⟨rfl, .nil, .nil, ?_, ?_, by
    simp [UnprocessedPacketBatches.clear, MinMaxHeap.clear]⟩ <;>
    simp [UnprocessedPacketBatches.clear, MinMaxHeap.clear]

theorem mem_alRemove {kv : Nat × DeserializedPacket} {k : Nat} {l : HashIndex}
    (h : kv ∈ alRemove k l) : kv ∈ l := by
  induction l with
  | nil => simp [alRemove] at h
  | cons kv' t ih =>
    by_cases hk : kv'.1 = k
    · rw [alRemove, if_pos hk] at h
      exact List.mem_cons_of_mem _ (ih h)
    · rw [alRemove, if_neg hk] at h
      rcases List.mem_cons.mp h with h | h
      · exact h ▸ List.mem_cons_self ..
      · exact List.mem_cons_of_mem _ (ih h)

theorem mem_alInsert {kv : Nat × DeserializedPacket} {k : Nat}
    {v : DeserializedPacket} {l : HashIndex} (h : kv ∈ alInsert k v l) :
    kv = (k, v) ∨ kv ∈ l := by
  rcases List.mem_cons.mp h with h | h
  · exact Or.inl h
  · exact Or.inr (mem_alRemove h)

theorem alRemove_keys_nodup {k : Nat} {l : HashIndex} (h : (alKeys l).Nodup) :
    (alKeys (alRemove k l)).Nodup := by
  rw [alRemove_keys]
  exact h.filter _

theorem alInsert_keys_nodup {k : Nat} (v : DeserializedPacket) {l : HashIndex}
    (h : (alKeys l).Nodup) : (alKeys (alInsert k v l)).Nodup := by
  rw [alInsert_keys]
  refine List.nodup_cons.mpr ⟨?_, h.filter _⟩
  simp

theorem alKeys_remove_subset {x k : Nat} {l : HashIndex}
    (h : x ∈ alKeys (alRemove k l)) : x ∈ alKeys l ∧ x ≠ k := by
  rw [alRemove_keys] at h
  have := List.mem_filter.mp h
  exact ⟨this.1, by simpa using this.2⟩

theorem alInsert_eq_cons {k : Nat} (v : DeserializedPacket) {l : HashIndex}
    (h : k ∉ alKeys l) : alInsert k v l = (k, v) :: l := by
  rw [alInsert, alRemove_of_not_mem h]

theorem alContains_false {k : Nat} {l : HashIndex} (h : ¬ alContains k l = true) :
    k ∉ alKeys l := by
  rw [← alLookup_eq_none]
  rcases ho : alLookup k l with _ | v
  · rfl
  · exact absurd (by rw [alContains, ho]; rfl) h

theorem perm_filter_ne_of_cons {k : Nat} {l l' : List Nat}
    (h : l.Perm (k :: l')) (h' : k ∉ l') :
    (l.filter fun y => decide (y ≠ k)).Perm l' := by
  have hf := h.filter (fun y => decide (y ≠ k))
  have hk : (decide (k ≠ k)) = false := by simp
  rw [List.filter_cons, hk] at hf
  simp only [Bool.false_eq_true, if_false] at hf
  have hself : List.filter (fun y => decide (y ≠ k)) l' = l' := by
    refine List.filter_eq_self.mpr ?_
    intro y hy
    have hyk : y ≠ k := fun hyk => h' (hyk ▸ hy)
    simpa using hyk
  rwa [hself] at hf

/-- The `push_pop_min` on an invariant-respecting buffer, fed a fresh hash: the
returned envelope is `≤` the incoming one, the invariants are preserved, and
either the incoming envelope itself bounced (buffer untouched) or the evicted
envelope left the index and the incoming one entered it. -/
theorem push_pop_min_spec (b : UnprocessedPacketBatches) (dp : DeserializedPacket)
    (hInv : Inv b)
    (hnew : dp.immutable_section.message_hash ∉ alKeys b.message_hash_to_transaction) :
    pktLe (b.push_pop_min dp).1.immutable_section dp.immutable_section ∧
    Inv (b.push_pop_min dp).2 ∧
    (b.push_pop_min dp).2.packet_priority_queue.elems.length =
      b.packet_priority_queue.elems.length ∧
    (b.push_pop_min dp).2.batch_limit = b.batch_limit ∧
    (((b.push_pop_min dp).1 = dp ∧ (b.push_pop_min dp).2 = b) ∨
      ((b.push_pop_min dp).1 ≠ dp ∧
        alLookup dp.immutable_section.message_hash
          (b.push_pop_min dp).2.message_hash_to_transaction = some dp ∧
        alLookup (b.push_pop_min dp).1.immutable_section.message_hash
          (b.push_pop_min dp).2.message_hash_to_transaction = none)) := by
  obtain ⟨hlen, hperm, hnd, hkey, hcoh, hcap⟩ := hInv
  rcases hq : b.packet_priority_queue.elems with _ | ⟨x, xs⟩
  · have hres : b.push_pop_min dp = (dp, b) := by
      unfold UnprocessedPacketBatches.push_pop_min MinMaxHeap.push_pop_min
      rw [hq]
      simp
    rw [hres]
    exact ⟨pktLe_refl _, ⟨hlen, hperm, hnd, hkey, hcoh, hcap⟩, by rw [hq], rfl,
      Or.inl ⟨rfl, rfl⟩⟩
  · by_cases hle : pktLe dp.immutable_section (selMin x xs)
    · have hres : b.push_pop_min dp = (dp, b) := by
        unfold UnprocessedPacketBatches.push_pop_min MinMaxHeap.push_pop_min
        rw [hq]
        simp [hle]
      rw [hres]
      exact ⟨pktLe_refl _, ⟨hlen, hperm, hnd, hkey, hcoh, hcap⟩, by rw [hq], rfl,
        Or.inl ⟨rfl, rfl⟩⟩
    · -- eviction branch
      have hmmem : selMin x xs ∈ x :: xs := selMin_mem x xs
      have hmemq : selMin x xs ∈ b.packet_priority_queue.elems := by rw [hq]; exact hmmem
      have hmh : (selMin x xs).message_hash ∈ alKeys b.message_hash_to_transaction := by
        refine hperm.mem_iff.mp ?_
        exact List.mem_map.mpr ⟨_, hmemq, rfl⟩
      have hne : (selMin x xs).message_hash ≠ dp.immutable_section.message_hash :=
        fun hh => hnew (hh ▸ hmh)
      obtain ⟨dpm, hdpm, hdpmimm⟩ :
          ∃ dpm, alLookup (selMin x xs).message_hash b.message_hash_to_transaction = some dpm ∧
            dpm.immutable_section = selMin x xs := by
        have := hcoh _ hmemq
        rcases ho : alLookup (selMin x xs).message_hash b.message_hash_to_transaction with _ | v
        · rw [ho] at this; cases this
        · rw [ho] at this
          exact ⟨v, rfl, by simpa using this⟩
      have hres : b.push_pop_min dp =
          (dpm,
            { b with
              packet_priority_queue :=
                ⟨dp.immutable_section :: (x :: xs).erase (selMin x xs),
                  b.packet_priority_queue.cap⟩
              message_hash_to_transaction :=
                alInsert dp.immutable_section.message_hash dp
                  (alRemove (selMin x xs).message_hash b.message_hash_to_transaction) }) := by
        unfold UnprocessedPacketBatches.push_pop_min MinMaxHeap.push_pop_min
        rw [hq]
        simp only [hle, if_false, if_pos hne, hdpm]
        rfl
      rw [hres]
      -- abbreviations
      have hkeysnd : (alKeys b.message_hash_to_transaction).Nodup := hperm.nodup_iff.mp hnd
      have hsub : ∀ y ∈ alKeys (alRemove (selMin x xs).message_hash
          b.message_hash_to_transaction), y ∈ alKeys b.message_hash_to_transaction :=
        fun y hy => (alKeys_remove_subset hy).1
      have hnotin : dp.immutable_section.message_hash ∉
          alKeys (alRemove (selMin x xs).message_hash b.message_hash_to_transaction) :=
        fun hh => hnew (hsub _ hh)
      have hins : alInsert dp.immutable_section.message_hash dp
          (alRemove (selMin x xs).message_hash b.message_hash_to_transaction) =
          (dp.immutable_section.message_hash, dp) ::
            alRemove (selMin x xs).message_hash b.message_hash_to_transaction :=
        alInsert_eq_cons dp hnotin
      -- the permuted queue hash list
      have hpermq : (x :: xs).Perm ((selMin x xs) :: (x :: xs).erase (selMin x xs)) :=
        List.perm_cons_erase hmmem
      have hpermmap : ((x :: xs).map fun m => m.message_hash).Perm
          ((selMin x xs).message_hash ::
            (((x :: xs).erase (selMin x xs)).map fun m => m.message_hash)) := by
        simpa using hpermq.map fun m => m.message_hash
      have hqh : queueHashes b = (x :: xs).map fun m => m.message_hash := by
        unfold queueHashes; rw [hq]
      have hnottail : (selMin x xs).message_hash ∉
          (((x :: xs).erase (selMin x xs)).map fun m => m.message_hash) := by
        have : ((selMin x xs).message_hash ::
            (((x :: xs).erase (selMin x xs)).map fun m => m.message_hash)).Nodup := by
          refine hpermmap.nodup_iff.mp ?_
          rw [← hqh]; exact hnd
        exact (List.nodup_cons.mp this).1
      have htailsub : (((x :: xs).erase (selMin x xs)).map fun m => m.message_hash).Sublist
          ((x :: xs).map fun m => m.message_hash) :=
        (List.erase_sublist _ _).map _
      have hremlen : (alRemove (selMin x xs).message_hash
          b.message_hash_to_transaction).length + 1 =
          b.message_hash_to_transaction.length :=
        alRemove_length_of_nodup hkeysnd hmh
      have hkeysrem : alKeys (alRemove (selMin x xs).message_hash
          b.message_hash_to_transaction) =
          (alKeys b.message_hash_to_transaction).filter
            (fun y => decide (y ≠ (selMin x xs).message_hash)) := alRemove_keys _ _
      refine ⟨?_, ⟨?_, ?_, ?_, ?_, ?_, ?_⟩, ?_, rfl, ?_⟩
      · rw [hdpmimm]
        exact pktLe_of_not hle
      · -- length equality
        show (dp.immutable_section :: (x :: xs).erase (selMin x xs)).length = _
        rw [hins]
        have := List.length_erase_of_mem hmmem
        simp only [List.length_cons] at *
        rw [hq] at hlen
        simp only [List.length_cons] at hlen
        omega
      · -- key permutation
        show ((dp.immutable_section :: (x :: xs).erase (selMin x xs)).map
            fun m => m.message_hash).Perm _
        rw [hins]
        show (dp.immutable_section.message_hash ::
          (((x :: xs).erase (selMin x xs)).map fun m => m.message_hash)).Perm
          (dp.immutable_section.message_hash :: _)
        refine List.Perm.cons _ ?_
        have hchain : (alKeys b.message_hash_to_transaction).Perm
            ((selMin x xs).message_hash ::
              (((x :: xs).erase (selMin x xs)).map fun m => m.message_hash)) := by
          refine List.Perm.trans ?_ hpermmap
          rw [← hqh]
          exact hperm.symm
        have hmain := perm_filter_ne_of_cons hchain hnottail
        rw [← hkeysrem] at hmain
        exact hmain.symm
      · -- nodup
        show ((dp.immutable_section :: (x :: xs).erase (selMin x xs)).map
            fun m => m.message_hash).Nodup
        simp only [List.map_cons]
        refine List.nodup_cons.mpr ⟨?_, ?_⟩
        · intro hmem'
          exact hnew (hperm.mem_iff.mp (by rw [hqh]; exact htailsub.mem hmem'))
        · exact htailsub.nodup (by rw [← hqh]; exact hnd)
      · -- keys of entries
        intro kv hkv
        rw [hins] at hkv
        rcases List.mem_cons.mp hkv with hkv | hkv
        · rw [hkv]
        · exact hkey _ (mem_alRemove hkv)
      · -- coherence
        intro m' hm'
        rcases List.mem_cons.mp hm' with hm' | hm'
        · rw [hm', alLookup_insert_self]
          rfl
        · have hm'x : m' ∈ x :: xs := List.mem_of_mem_erase hm'
          have hm'q : m' ∈ b.packet_priority_queue.elems := by rw [hq]; exact hm'x
          have hm'h : m'.message_hash ∈ alKeys b.message_hash_to_transaction :=
            hperm.mem_iff.mp (List.mem_map.mpr ⟨_, hm'q, rfl⟩)
          have hm'ne : m'.message_hash ≠ dp.immutable_section.message_hash :=
            fun hh => hnew (hh ▸ hm'h)
          have hm'nem : m'.message_hash ≠ (selMin x xs).message_hash := by
            intro hh
            exact hnottail (hh ▸ List.mem_map.mpr ⟨_, hm', rfl⟩)
          rw [alLookup_insert_ne hm'ne, alLookup_remove_ne hm'nem]
          exact hcoh _ hm'q
      · -- capacity bound
        show (dp.immutable_section :: (x :: xs).erase (selMin x xs)).length ≤ _
        have := List.length_erase_of_mem hmmem
        rw [hq] at hcap
        simp only [List.length_cons] at *
        omega
      · -- same heap length
        show (dp.immutable_section :: (x :: xs).erase (selMin x xs)).length = (x :: xs).length
        have hl := List.length_erase_of_mem hmmem
        simp only [List.length_cons] at hl ⊢
        omega
      · -- eviction facts
        refine Or.inr ⟨?_, ?_, ?_⟩
        · intro hh
          have hdpmdp : dpm = dp := hh
          apply hne
          rw [← hdpmimm, hdpmdp]
        · exact alLookup_insert_self ..
        · show alLookup dpm.immutable_section.message_hash
            (alInsert dp.immutable_section.message_hash dp
              (alRemove (selMin x xs).message_hash b.message_hash_to_transaction)) = none
          rw [hdpmimm]
          rw [alLookup_insert_ne hne, alLookup_remove_self]

/-- The `push` preserves the invariants. -/
theorem inv_push (b : UnprocessedPacketBatches) (dp : DeserializedPacket)
    (hInv : Inv b) : Inv (b.push dp).2 := by
  obtain ⟨hlen, hperm, hnd, hkey, hcoh, hcap⟩ := hInv
  unfold UnprocessedPacketBatches.push
  by_cases hc : alContains dp.immutable_section.message_hash
      b.message_hash_to_transaction = true
  · rw [if_pos hc]
    exact ⟨hlen, hperm, hnd, hkey, hcoh, hcap⟩
  · rw [if_neg hc]
    have hnew := alContains_false hc
    by_cases hfull : b.len = b.batch_limit
    · rw [if_pos hfull]
      exact (push_pop_min_spec b dp ⟨hlen, hperm, hnd, hkey, hcoh, hcap⟩ hnew).2.1
    · rw [if_neg hfull]
      have hins : alInsert dp.immutable_section.message_hash dp
          b.message_hash_to_transaction =
          (dp.immutable_section.message_hash, dp) :: b.message_hash_to_transaction :=
        alInsert_eq_cons dp hnew
      have hlt : b.packet_priority_queue.elems.length < b.batch_limit := by
        have h1 : b.packet_priority_queue.elems.length ≠ b.batch_limit := hfull
        omega
      show Inv (b.push_internal dp)
      unfold UnprocessedPacketBatches.push_internal MinMaxHeap.push
      refine ⟨?_, ?_, ?_, ?_, ?_, ?_⟩
      · show (dp.immutable_section :: b.packet_priority_queue.elems).length =
          (alInsert dp.immutable_section.message_hash dp
            b.message_hash_to_transaction).length
        rw [hins]
        simp [hlen]
      · show ((dp.immutable_section :: b.packet_priority_queue.elems).map
            fun m => m.message_hash).Perm
          (alKeys (alInsert dp.immutable_section.message_hash dp
            b.message_hash_to_transaction))
        rw [hins]
        simp only [List.map_cons]
        exact hperm.cons _
      · show ((dp.immutable_section :: b.packet_priority_queue.elems).map
            fun m => m.message_hash).Nodup
        simp only [List.map_cons]
        refine List.nodup_cons.mpr ⟨?_, hnd⟩
        intro hmem
        exact hnew (hperm.mem_iff.mp hmem)
      · show ∀ kv ∈ alInsert dp.immutable_section.message_hash dp
          b.message_hash_to_transaction, kv.2.immutable_section.message_hash = kv.1
        intro kv hkv
        rw [hins] at hkv
        rcases List.mem_cons.mp hkv with hkv | hkv
        · rw [hkv]
        · exact hkey _ hkv
      · show ∀ m' ∈ dp.immutable_section :: b.packet_priority_queue.elems,
          (alLookup m'.message_hash (alInsert dp.immutable_section.message_hash dp
            b.message_hash_to_transaction)).map (fun dp => dp.immutable_section) = some m'
        intro m' hm'
        rcases List.mem_cons.mp hm' with hm' | hm'
        · rw [hm', alLookup_insert_self]
          rfl
        · have hm'h : m'.message_hash ∈ alKeys b.message_hash_to_transaction :=
            hperm.mem_iff.mp (List.mem_map.mpr ⟨_, hm', rfl⟩)
          have hm'ne : m'.message_hash ≠ dp.immutable_section.message_hash :=
            fun hh => hnew (hh ▸ hm'h)
          rw [alLookup_insert_ne hm'ne]
          exact hcoh _ hm'
      · show (dp.immutable_section :: b.packet_priority_queue.elems).length ≤ b.batch_limit
        simp only [List.length_cons]
        omega

/-- The `pop_max` on an empty buffer is a no-op returning `none`. -/
theorem pop_max_empty (b : UnprocessedPacketBatches)
    (hq : b.packet_priority_queue.elems = []) : b.pop_max = (none, b) := by
  unfold UnprocessedPacketBatches.pop_max MinMaxHeap.pop_max
  rw [hq]

/-- The `pop_max` on a non-empty invariant-respecting buffer: it returns the
envelope of a maximal record, removes exactly that record and its index
entry, and preserves the invariants. -/
theorem pop_max_spec (b : UnprocessedPacketBatches) (hInv : Inv b)
    (x : ImmutableDeserializedPacket) (xs : List ImmutableDeserializedPacket)
    (hq : b.packet_priority_queue.elems = x :: xs) :
    ∃ dp, b.pop_max =
        (some dp,
          { b with
            packet_priority_queue :=
              ⟨(x :: xs).erase (selMax x xs), b.packet_priority_queue.cap⟩
            message_hash_to_transaction :=
              alRemove (selMax x xs).message_hash b.message_hash_to_transaction }) ∧
      dp.immutable_section = selMax x xs ∧
      Inv (b.pop_max).2 ∧
      (b.pop_max).2.packet_priority_queue.elems.length + 1 =
        b.packet_priority_queue.elems.length := by
  obtain ⟨hlen, hperm, hnd, hkey, hcoh, hcap⟩ := hInv
  have hmmem : selMax x xs ∈ x :: xs := selMax_mem x xs
  have hmemq : selMax x xs ∈ b.packet_priority_queue.elems := by rw [hq]; exact hmmem
  have hmh : (selMax x xs).message_hash ∈ alKeys b.message_hash_to_transaction :=
    hperm.mem_iff.mp (List.mem_map.mpr ⟨_, hmemq, rfl⟩)
  obtain ⟨dpm, hdpm, hdpmimm⟩ :
      ∃ dpm, alLookup (selMax x xs).message_hash b.message_hash_to_transaction = some dpm ∧
        dpm.immutable_section = selMax x xs := by
    have := hcoh _ hmemq
    rcases ho : alLookup (selMax x xs).message_hash b.message_hash_to_transaction with _ | v
    · rw [ho] at this; cases this
    · rw [ho] at this
      exact ⟨v, rfl, by simpa using this⟩
  have hres : b.pop_max =
      (some dpm,
        { b with
          packet_priority_queue :=
            ⟨(x :: xs).erase (selMax x xs), b.packet_priority_queue.cap⟩
          message_hash_to_transaction :=
            alRemove (selMax x xs).message_hash b.message_hash_to_transaction }) := by
    unfold UnprocessedPacketBatches.pop_max MinMaxHeap.pop_max
    rw [hq]
    simp only [hdpm]
  have hkeysnd : (alKeys b.message_hash_to_transaction).Nodup := hperm.nodup_iff.mp hnd
  have hqh : queueHashes b = (x :: xs).map fun m => m.message_hash := by
    unfold queueHashes; rw [hq]
  have hpermmap : ((x :: xs).map fun m => m.message_hash).Perm
      ((selMax x xs).message_hash ::
        (((x :: xs).erase (selMax x xs)).map fun m => m.message_hash)) := by
    simpa using (List.perm_cons_erase hmmem).map fun m => m.message_hash
  have hnottail : (selMax x xs).message_hash ∉
      (((x :: xs).erase (selMax x xs)).map fun m => m.message_hash) := by
    have : ((selMax x xs).message_hash ::
        (((x :: xs).erase (selMax x xs)).map fun m => m.message_hash)).Nodup := by
      refine hpermmap.nodup_iff.mp ?_
      rw [← hqh]; exact hnd
    exact (List.nodup_cons.mp this).1
  have htailsub : (((x :: xs).erase (selMax x xs)).map fun m => m.message_hash).Sublist
      ((x :: xs).map fun m => m.message_hash) :=
    (List.erase_sublist _ _).map _
  have hremlen : (alRemove (selMax x xs).message_hash
      b.message_hash_to_transaction).length + 1 =
      b.message_hash_to_transaction.length :=
    alRemove_length_of_nodup hkeysnd hmh
  have hlerase := List.length_erase_of_mem hmmem
  refine ⟨dpm, hres, hdpmimm, ?_, ?_⟩
  · rw [hres]
    refine ⟨?_, ?_, ?_, ?_, ?_, ?_⟩
    · show ((x :: xs).erase (selMax x xs)).length = _
      rw [hq] at hlen
      simp only [List.length_cons] at *
      omega
    · show (((x :: xs).erase (selMax x xs)).map fun m => m.message_hash).Perm _
      have hchain : (alKeys b.message_hash_to_transaction).Perm
          ((selMax x xs).message_hash ::
            (((x :: xs).erase (selMax x xs)).map fun m => m.message_hash)) := by
        refine List.Perm.trans ?_ hpermmap
        rw [← hqh]
        exact hperm.symm
      have hmain := perm_filter_ne_of_cons hchain hnottail
      rw [← alRemove_keys] at hmain
      exact hmain.symm
    · show (((x :: xs).erase (selMax x xs)).map fun m => m.message_hash).Nodup
      exact htailsub.nodup (by rw [← hqh]; exact hnd)
    · intro kv hkv
      exact hkey _ (mem_alRemove hkv)
    · intro m' hm'
      have hm'x : m' ∈ x :: xs := List.mem_of_mem_erase hm'
      have hm'q : m' ∈ b.packet_priority_queue.elems := by rw [hq]; exact hm'x
      have hm'nem : m'.message_hash ≠ (selMax x xs).message_hash := by
        intro hh
        exact hnottail (hh ▸ List.mem_map.mpr ⟨_, hm', rfl⟩)
      show (alLookup m'.message_hash (alRemove (selMax x xs).message_hash
        b.message_hash_to_transaction)).map (fun dp => dp.immutable_section) = some m'
      rw [alLookup_remove_ne hm'nem]
      exact hcoh _ hm'q
    · show ((x :: xs).erase (selMax x xs)).length ≤ _
      rw [hq] at hcap
      simp only [List.length_cons] at *
      omega
  · rw [hres, hq]
    show ((x :: xs).erase (selMax x xs)).length + 1 = _
    simp only [List.length_cons] at *
    omega

/-- The `pop_max` preserves the invariants. -/
theorem inv_pop_max (b : UnprocessedPacketBatches) (hInv : Inv b) :
    Inv (b.pop_max).2 := by
  rcases hq : b.packet_priority_queue.elems with _ | ⟨x, xs⟩
  · rw [pop_max_empty b hq]
    exact hInv
  · exact ((pop_max_spec b hInv x xs hq).choose_spec).2.2.1

/-- The iterated pop of `pop_max_n`: with `k` at most the current size, it
pops exactly `k` envelopes, drawn from the buffer, in non-increasing
`(priority, sender_stake)` order, preserving the invariants. -/
theorem pop_max_go_spec (k : Nat) :
    ∀ b : UnprocessedPacketBatches, Inv b →
      k ≤ b.packet_priority_queue.elems.length →
      (UnprocessedPacketBatches.pop_max_go k b).1.length = k ∧
      Inv (UnprocessedPacketBatches.pop_max_go k b).2 ∧
      (UnprocessedPacketBatches.pop_max_go k b).2.packet_priority_queue.elems.length =
        b.packet_priority_queue.elems.length - k ∧
      (∀ dp ∈ (UnprocessedPacketBatches.pop_max_go k b).1,
        dp.immutable_section ∈ b.packet_priority_queue.elems) ∧
      List.Pairwise (fun d1 d2 => pktLe d2.immutable_section d1.immutable_section)
        (UnprocessedPacketBatches.pop_max_go k b).1 := by
  induction k with
  | zero =>
    intro b hInv _
    exact ⟨rfl, hInv, by simp [UnprocessedPacketBatches.pop_max_go],
      by simp [UnprocessedPacketBatches.pop_max_go], by
        simp [UnprocessedPacketBatches.pop_max_go]⟩
  | succ k ih =>
    intro b hInv hk
    rcases hq : b.packet_priority_queue.elems with _ | ⟨x, xs⟩
    · rw [hq] at hk; simp at hk
    obtain ⟨dpm, hres, hdpmimm, hInv', hlen'⟩ := pop_max_spec b hInv x xs hq
    rw [hres] at hInv' hlen'
    dsimp only at hInv' hlen'
    have hk' : k ≤ ((x :: xs).erase (selMax x xs)).length := by
      rw [hq] at hk
      have := List.length_erase_of_mem (selMax_mem x xs)
      simp only [List.length_cons] at *
      omega
    have hgo : UnprocessedPacketBatches.pop_max_go (k + 1) b =
        (dpm :: (UnprocessedPacketBatches.pop_max_go k
          { b with
            packet_priority_queue :=
              ⟨(x :: xs).erase (selMax x xs), b.packet_priority_queue.cap⟩
            message_hash_to_transaction :=
              alRemove (selMax x xs).message_hash b.message_hash_to_transaction }).1,
         (UnprocessedPacketBatches.pop_max_go k
          { b with
            packet_priority_queue :=
              ⟨(x :: xs).erase (selMax x xs), b.packet_priority_queue.cap⟩
            message_hash_to_transaction :=
              alRemove (selMax x xs).message_hash b.message_hash_to_transaction }).2) := by
      show (match b.pop_max with
        | (some dp, b') =>
          (dp :: (UnprocessedPacketBatches.pop_max_go k b').1,
            (UnprocessedPacketBatches.pop_max_go k b').2)
        | (none, b') => ([], b')) = _
      rw [hres]
    obtain ⟨ihlen, ihinv, ihqlen, ihmem, ihpair⟩ := ih _ hInv' hk'
    rw [hgo]
    dsimp only
    refine ⟨by simp [ihlen], ihinv, ?_, ?_, ?_⟩
    · rw [ihqlen]
      have := List.length_erase_of_mem (selMax_mem x xs)
      simp only [List.length_cons] at *
      omega
    · intro dp hdp
      rcases List.mem_cons.mp hdp with hdp | hdp
      · rw [hdp, hdpmimm]
        exact selMax_mem x xs
      · exact List.mem_of_mem_erase (ihmem _ hdp)
    · refine List.pairwise_cons.mpr ⟨?_, ihpair⟩
      intro d2 hd2
      have hd2x : d2.immutable_section ∈ x :: xs :=
        List.mem_of_mem_erase (ihmem _ hd2)
      rw [hdpmimm]
      exact le_selMax x xs _ hd2x

/-- The `pop_max_n` preserves the invariants. -/
theorem inv_pop_max_n (b : UnprocessedPacketBatches) (n : Nat) (hInv : Inv b) :
    Inv (b.pop_max_n n).2 := by
  unfold UnprocessedPacketBatches.pop_max_n
  by_cases he : b.is_empty = true
  · rw [if_pos he]
    exact hInv
  · rw [if_neg he]
    exact (pop_max_go_spec (min b.len n) b hInv (Nat.min_le_left _ _)).2.1

/-- The `insert_batch` preserves the invariants. -/
theorem inv_insert_batch (dps : List DeserializedPacket) :
    ∀ p : Nat × UnprocessedPacketBatches, Inv p.2 →
      Inv (dps.foldl
        (fun acc dp =>
          let pr := acc.2.push dp
          (if pr.1.isSome then acc.1 + 1 else acc.1, pr.2)) p).2 := by
  induction dps with
  | nil => intro p h; exact h
  | cons dp t ih =>
    intro p h
    exact ih _ (inv_push p.2 dp h)

/-! ### Characterization of `retain` -/

/-- Whether the envelope currently indexed under hash `k` survives the
predicate (false when no entry exists). -/
def keptAt (f : DeserializedPacket → DeserializedPacket × Bool) (idx : HashIndex)
    (k : Nat) : Bool :=
  match alLookup k idx with
  | some dp => (f dp).2
  | none => false

/-- The index entry at `k` after `retain`: the (possibly mutated) envelope
when the predicate keeps it, nothing when it drops it. -/
def retainExpected (f : DeserializedPacket → DeserializedPacket × Bool)
    (idx : HashIndex) (k : Nat) : Option DeserializedPacket :=
  (alLookup k idx).bind fun dp => if (f dp).2 then some (f dp).1 else none

/-- The core `retain` induction: with pairwise-distinct heap hashes all
present in the index, the rebuilt heap is the filter of the old one, the
predicate is applied exactly to the looked-up envelopes in heap order, and
the final index is described pointwise by `retainExpected`. -/
theorem retainGo_spec (f : DeserializedPacket → DeserializedPacket × Bool) :
    ∀ (q : List ImmutableDeserializedPacket) (idx : HashIndex),
      (q.map fun m => m.message_hash).Nodup →
      (∀ m ∈ q, (alLookup m.message_hash idx).isSome) →
      (retainGo f q idx).1 = q.filter (fun m => keptAt f idx m.message_hash) ∧
      (retainGo f q idx).2.2 =
        q.map (fun m => (alLookup m.message_hash idx).getD default) ∧
      (∀ k, alLookup k (retainGo f q idx).2.1 =
        if k ∈ q.map (fun m => m.message_hash) then retainExpected f idx k
        else alLookup k idx) := by
  intro q
  induction q with
  | nil =>
    intro idx _ _
    refine ⟨rfl, rfl, fun k => ?_⟩
    simp [retainGo]
  | cons m rest ih =>
    intro idx hnd hsome
    have hhead := hsome m (List.mem_cons_self ..)
    rcases ho : alLookup m.message_hash idx with _ | dp
    · rw [ho] at hhead; cases hhead
    have hndtail : (rest.map fun m => m.message_hash).Nodup :=
      (List.nodup_cons.mp (by simpa using hnd)).2
    have hheadnot : m.message_hash ∉ rest.map fun m => m.message_hash :=
      (List.nodup_cons.mp (by simpa using hnd)).1
    -- the index after the head step
    have hstep : retainGo f (m :: rest) idx =
        (if (f dp).2
            then m :: (retainGo f rest
              (if (f dp).2 then alInsert m.message_hash (f dp).1 idx
               else alRemove m.message_hash idx)).1
            else (retainGo f rest
              (if (f dp).2 then alInsert m.message_hash (f dp).1 idx
               else alRemove m.message_hash idx)).1,
          (retainGo f rest
            (if (f dp).2 then alInsert m.message_hash (f dp).1 idx
             else alRemove m.message_hash idx)).2.1,
          dp :: (retainGo f rest
            (if (f dp).2 then alInsert m.message_hash (f dp).1 idx
             else alRemove m.message_hash idx)).2.2) := by
      show (match alLookup m.message_hash idx with
        | none => retainGo f rest idx
        | some dp =>
          ((if (f dp).2
              then m :: (retainGo f rest
                (if (f dp).2 then alInsert m.message_hash (f dp).1 idx
                 else alRemove m.message_hash idx)).1
              else (retainGo f rest
                (if (f dp).2 then alInsert m.message_hash (f dp).1 idx
                 else alRemove m.message_hash idx)).1),
            (retainGo f rest
              (if (f dp).2 then alInsert m.message_hash (f dp).1 idx
               else alRemove m.message_hash idx)).2.1,
            dp :: (retainGo f rest
              (if (f dp).2 then alInsert m.message_hash (f dp).1 idx
               else alRemove m.message_hash idx)).2.2)) = _
      rw [ho]
    set idx1 := if (f dp).2 then alInsert m.message_hash (f dp).1 idx
      else alRemove m.message_hash idx with hidx1
    have hlook1 : ∀ k, k ≠ m.message_hash → alLookup k idx1 = alLookup k idx := by
      intro k hk
      rw [hidx1]
      by_cases hfd : (f dp).2 = true
      · rw [if_pos hfd, alLookup_insert_ne hk]
      · rw [if_neg hfd, alLookup_remove_ne hk]
    have hlookm : alLookup m.message_hash idx1 =
        if (f dp).2 then some (f dp).1 else none := by
      rw [hidx1]
      by_cases hfd : (f dp).2 = true
      · rw [if_pos hfd, if_pos hfd, alLookup_insert_self]
      · rw [if_neg hfd, if_neg hfd, alLookup_remove_self]
    have hsome1 : ∀ m' ∈ rest, (alLookup m'.message_hash idx1).isSome := by
      intro m' hm'
      have hne : m'.message_hash ≠ m.message_hash := by
        intro hh
        exact hheadnot (hh ▸ List.mem_map.mpr ⟨_, hm', rfl⟩)
      rw [hlook1 _ hne]
      exact hsome m' (List.mem_cons_of_mem _ hm')
    obtain ⟨ihq, ihtr, ihlook⟩ := ih idx1 hndtail hsome1
    refine ⟨?_, ?_, ?_⟩
    · rw [hstep]
      dsimp only
      rw [List.filter_cons]
      have hkept : keptAt f idx m.message_hash = (f dp).2 := by
        rw [keptAt, ho]
      rw [ihq]
      have hfilter : rest.filter (fun m' => keptAt f idx1 m'.message_hash) =
          rest.filter (fun m' => keptAt f idx m'.message_hash) := by
        refine List.filter_congr ?_
        intro m' hm'
        have hne : m'.message_hash ≠ m.message_hash := by
          intro hh
          exact hheadnot (hh ▸ List.mem_map.mpr ⟨_, hm', rfl⟩)
        rw [keptAt, keptAt, hlook1 _ hne]
      rw [hfilter, hkept]
    · rw [hstep]
      dsimp only
      rw [ihtr, List.map_cons, ho]
      congr 1
      refine List.map_congr_left ?_
      intro m' hm'
      have hne : m'.message_hash ≠ m.message_hash := by
        intro hh
        exact hheadnot (hh ▸ List.mem_map.mpr ⟨_, hm', rfl⟩)
      rw [hlook1 _ hne]
    · intro k
      rw [hstep]
      dsimp only
      rw [ihlook k]
      by_cases hkrest : k ∈ rest.map fun m' => m'.message_hash
      · have hkhead : k ∈ (m :: rest).map fun m' => m'.message_hash := by
          simp only [List.map_cons, List.mem_cons]
          exact Or.inr hkrest
        rw [if_pos hkrest, if_pos hkhead]
        have hkne : k ≠ m.message_hash := fun hh => hheadnot (hh ▸ hkrest)
        rw [retainExpected, retainExpected, hlook1 _ hkne]
      · rw [if_neg hkrest]
        by_cases hkm : k = m.message_hash
        · have hkhead : k ∈ (m :: rest).map fun m' => m'.message_hash := by
            simp only [List.map_cons, List.mem_cons]
            exact Or.inl hkm
          rw [if_pos hkhead, hkm, hlookm, retainExpected, ho]
          rfl
        · have hkhead : k ∉ (m :: rest).map fun m' => m'.message_hash := by
            simp only [List.map_cons, List.mem_cons]
            push_neg
            exact ⟨hkm, hkrest⟩
          rw [if_neg hkhead, hlook1 _ hkm]

/-- The `retainGo` keeps the index keys pairwise distinct. -/
theorem retainGo_keys_nodup (f : DeserializedPacket → DeserializedPacket × Bool) :
    ∀ (q : List ImmutableDeserializedPacket) (idx : HashIndex),
      (alKeys idx).Nodup → (alKeys (retainGo f q idx).2.1).Nodup := by
  intro q
  induction q with
  | nil => intro idx h; exact h
  | cons m rest ih =>
    intro idx h
    show (alKeys (match alLookup m.message_hash idx with
      | none => retainGo f rest idx
      | some dp =>
        ((if (f dp).2
            then m :: (retainGo f rest
              (if (f dp).2 then alInsert m.message_hash (f dp).1 idx
               else alRemove m.message_hash idx)).1
            else (retainGo f rest
              (if (f dp).2 then alInsert m.message_hash (f dp).1 idx
               else alRemove m.message_hash idx)).1),
          (retainGo f rest
            (if (f dp).2 then alInsert m.message_hash (f dp).1 idx
             else alRemove m.message_hash idx)).2.1,
          dp :: (retainGo f rest
            (if (f dp).2 then alInsert m.message_hash (f dp).1 idx
             else alRemove m.message_hash idx)).2.2)).2.1).Nodup
    rcases ho : alLookup m.message_hash idx with _ | dp
    · exact ih idx h
    · dsimp only
      refine ih _ ?_
      by_cases hfd : (f dp).2 = true
      · rw [if_pos hfd]
        exact alInsert_keys_nodup _ h
      · rw [if_neg hfd]
        exact alRemove_keys_nodup h

/-- The `retainGo` keeps every index entry keyed by its envelope's hash, provided
the predicate does not swap out the immutable record. -/
theorem retainGo_keyed (f : DeserializedPacket → DeserializedPacket × Bool)
    (himm : ∀ dp, ((f dp).1).immutable_section = dp.immutable_section) :
    ∀ (q : List ImmutableDeserializedPacket) (idx : HashIndex),
      (∀ kv ∈ idx, kv.2.immutable_section.message_hash = kv.1) →
      ∀ kv ∈ (retainGo f q idx).2.1, kv.2.immutable_section.message_hash = kv.1 := by
  intro q
  induction q with
  | nil => intro idx h; exact h
  | cons m rest ih =>
    intro idx h
    show ∀ kv ∈ (match alLookup m.message_hash idx with
      | none => retainGo f rest idx
      | some dp =>
        ((if (f dp).2
            then m :: (retainGo f rest
              (if (f dp).2 then alInsert m.message_hash (f dp).1 idx
               else alRemove m.message_hash idx)).1
            else (retainGo f rest
              (if (f dp).2 then alInsert m.message_hash (f dp).1 idx
               else alRemove m.message_hash idx)).1),
          (retainGo f rest
            (if (f dp).2 then alInsert m.message_hash (f dp).1 idx
             else alRemove m.message_hash idx)).2.1,
          dp :: (retainGo f rest
            (if (f dp).2 then alInsert m.message_hash (f dp).1 idx
             else alRemove m.message_hash idx)).2.2)).2.1,
      kv.2.immutable_section.message_hash = kv.1
    rcases ho : alLookup m.message_hash idx with _ | dp
    · exact ih idx h
    · dsimp only
      refine ih _ ?_
      have hdpk : dp.immutable_section.message_hash = m.message_hash :=
        h _ (alLookup_mem ho)
      intro kv hkv
      by_cases hfd : (f dp).2 = true
      · rw [if_pos hfd] at hkv
        rcases mem_alInsert hkv with hkv | hkv
        · rw [hkv]
          show ((f dp).1).immutable_section.message_hash = m.message_hash
          rw [himm dp, hdpk]
        · exact h _ hkv
      · rw [if_neg hfd] at hkv
        exact h _ (mem_alRemove hkv)

/-- The two membership characterizations behind `retain`'s invariant
preservation: a hash survives in the rebuilt heap exactly when it survives in
the index. -/
theorem retain_mem_iff (b : UnprocessedPacketBatches)
    (f : DeserializedPacket → DeserializedPacket × Bool) (hInv : Inv b) :
    ∀ k, (k ∈ (retainGo f b.packet_priority_queue.elems
        b.message_hash_to_transaction).1.map fun m => m.message_hash) ↔
      k ∈ alKeys (retainGo f b.packet_priority_queue.elems
        b.message_hash_to_transaction).2.1 := by
  obtain ⟨hlen, hperm, hnd, hkey, hcoh, hcap⟩ := hInv
  have hnd0 : (b.packet_priority_queue.elems.map fun m => m.message_hash).Nodup := hnd
  have hsome : ∀ m ∈ b.packet_priority_queue.elems,
      (alLookup m.message_hash b.message_hash_to_transaction).isSome := by
    intro m hm
    have hch := hcoh m hm
    rcases ho : alLookup m.message_hash b.message_hash_to_transaction with _ | v
    · rw [ho] at hch; cases hch
    · rfl
  obtain ⟨hq', htr, hlook⟩ := retainGo_spec f b.packet_priority_queue.elems
    b.message_hash_to_transaction hnd0 hsome
  intro k
  have hLHS : (k ∈ (retainGo f b.packet_priority_queue.elems
      b.message_hash_to_transaction).1.map fun m => m.message_hash) ↔
      (k ∈ (b.packet_priority_queue.elems.map fun m => m.message_hash) ∧
        keptAt f b.message_hash_to_transaction k = true) := by
    rw [hq']
    constructor
    · intro hk
      obtain ⟨m, hm, hmk⟩ := List.mem_map.mp hk
      obtain ⟨hmel, hkept⟩ := List.mem_filter.mp hm
      exact ⟨List.mem_map.mpr ⟨m, hmel, hmk⟩, hmk ▸ hkept⟩
    · intro hk
      obtain ⟨m, hm, hmk⟩ := List.mem_map.mp hk.1
      exact List.mem_map.mpr
        ⟨m, List.mem_filter.mpr ⟨hm, by rw [hmk]; exact hk.2⟩, hmk⟩
  have hRHS : (k ∈ alKeys (retainGo f b.packet_priority_queue.elems
      b.message_hash_to_transaction).2.1) ↔
      (k ∈ (b.packet_priority_queue.elems.map fun m => m.message_hash) ∧
        keptAt f b.message_hash_to_transaction k = true) := by
    constructor
    · intro hk
      have hnn : ¬ alLookup k (retainGo f b.packet_priority_queue.elems
          b.message_hash_to_transaction).2.1 = none := by
        rw [alLookup_eq_none]
        exact fun hh => hh hk
      rw [hlook k] at hnn
      by_cases hkq : k ∈ b.packet_priority_queue.elems.map fun m => m.message_hash
      · rw [if_pos hkq] at hnn
        refine ⟨hkq, ?_⟩
        rw [retainExpected] at hnn
        rcases ho : alLookup k b.message_hash_to_transaction with _ | dp
        · rw [ho] at hnn; simp at hnn
        · rw [ho] at hnn
          rw [keptAt, ho]
          by_cases hfd : (f dp).2 = true
          · exact hfd
          · rw [show Option.bind (some dp)
                (fun dp => if (f dp).2 then some ((f dp).1) else none) =
                if (f dp).2 then some ((f dp).1) else none from rfl,
              if_neg hfd] at hnn
            simp at hnn
      · rw [if_neg hkq] at hnn
        have hnone : alLookup k b.message_hash_to_transaction = none :=
          (alLookup_eq_none k _).mpr (fun hkk => hkq (hperm.mem_iff.mpr hkk))
        exact absurd hnone hnn
    · intro hk
      obtain ⟨hkq, hkept⟩ := hk
      rw [keptAt] at hkept
      rcases ho : alLookup k b.message_hash_to_transaction with _ | dp
      · rw [ho] at hkept; cases hkept
      · rw [ho] at hkept
        have hfin : alLookup k (retainGo f b.packet_priority_queue.elems
            b.message_hash_to_transaction).2.1 = some ((f dp).1) := by
          rw [hlook k, if_pos hkq, retainExpected, ho]
          show (if (f dp).2 then some ((f dp).1) else none) = _
          rw [if_pos hkept]
        exact mem_keys_of_lookup hfin
  rw [hLHS, hRHS]

/-- The `retain` preserves the invariants, provided the predicate only mutates the
envelope's `forwarded` flag (the only mutation the spec licenses). -/
theorem inv_retain (b : UnprocessedPacketBatches)
    (f : DeserializedPacket → DeserializedPacket × Bool) (hInv : Inv b)
    (himm : ∀ dp, ((f dp).1).immutable_section = dp.immutable_section) :
    Inv (b.retain f) := by
  obtain ⟨hlen, hperm, hnd, hkey, hcoh, hcap⟩ := hInv
  have hnd0 : (b.packet_priority_queue.elems.map fun m => m.message_hash).Nodup := hnd
  have hsome : ∀ m ∈ b.packet_priority_queue.elems,
      (alLookup m.message_hash b.message_hash_to_transaction).isSome := by
    intro m hm
    have hch := hcoh m hm
    rcases ho : alLookup m.message_hash b.message_hash_to_transaction with _ | v
    · rw [ho] at hch; cases hch
    · rfl
  obtain ⟨hq', htr, hlook⟩ := retainGo_spec f b.packet_priority_queue.elems
    b.message_hash_to_transaction hnd0 hsome
  have hkeysnd : (alKeys b.message_hash_to_transaction).Nodup := hperm.nodup_iff.mp hnd
  have hkeys' : (alKeys (retainGo f b.packet_priority_queue.elems
      b.message_hash_to_transaction).2.1).Nodup :=
    retainGo_keys_nodup f _ _ hkeysnd
  have hndq' : ((retainGo f b.packet_priority_queue.elems
      b.message_hash_to_transaction).1.map fun m => m.message_hash).Nodup := by
    rw [hq']
    exact ((List.filter_sublist _).map _).nodup hnd0
  have hperm' : ((retainGo f b.packet_priority_queue.elems
      b.message_hash_to_transaction).1.map fun m => m.message_hash).Perm
      (alKeys (retainGo f b.packet_priority_queue.elems
        b.message_hash_to_transaction).2.1) :=
    (List.perm_ext_iff_of_nodup hndq' hkeys').mpr (retain_mem_iff b f
      ⟨hlen, hperm, hnd, hkey, hcoh, hcap⟩)
  refine ⟨?_, hperm', hndq', ?_, ?_, ?_⟩
  · show (retainGo f b.packet_priority_queue.elems
        b.message_hash_to_transaction).1.length =
      (retainGo f b.packet_priority_queue.elems
        b.message_hash_to_transaction).2.1.length
    have h1 := hperm'.length_eq
    simpa [alKeys] using h1
  · exact retainGo_keyed f himm _ _ hkey
  · intro m' hm'
    have hm'f : m' ∈ b.packet_priority_queue.elems.filter
        (fun m => keptAt f b.message_hash_to_transaction m.message_hash) := by
      rw [← hq']; exact hm'
    obtain ⟨hm'el, hm'kept⟩ := List.mem_filter.mp hm'f
    rw [keptAt] at hm'kept
    rcases ho : alLookup m'.message_hash b.message_hash_to_transaction with _ | dp
    · rw [ho] at hm'kept; cases hm'kept
    · rw [ho] at hm'kept
      have hdpimm : dp.immutable_section = m' := by
        have hch := hcoh m' hm'el
        rw [ho] at hch
        simpa using hch
      show (alLookup m'.message_hash (retainGo f b.packet_priority_queue.elems
          b.message_hash_to_transaction).2.1).map
        (fun dp => dp.immutable_section) = some m'
      rw [hlook m'.message_hash,
        if_pos (List.mem_map.mpr ⟨m', hm'el, rfl⟩), retainExpected, ho]
      show ((if (f dp).2 then some ((f dp).1) else none).map
        fun dp => dp.immutable_section) = some m'
      rw [if_pos hm'kept]
      show some ((f dp).1.immutable_section) = some m'
      rw [himm dp, hdpimm]
  · show (retainGo f b.packet_priority_queue.elems
        b.message_hash_to_transaction).1.length ≤ b.batch_limit
    rw [hq']
    exact Nat.le_trans (List.filter_sublist _).length_le hcap

/-! ### Operation sequences -/

/-- One public buffer operation.  `retain`'s Rust predicate receives `&mut
DeserializedPacket`; per the spec its only mutation point is the `forwarded`
flag, so it is carried here as a keep-verdict together with the new flag
value. -/
inductive BufferOp where
  | push (dp : DeserializedPacket)
  | insert_batch (dps : List DeserializedPacket)
  | pop_max
  | pop_max_n (n : Nat)
  | retain (keep : DeserializedPacket → Bool) (newFwd : DeserializedPacket → Bool)
  | clear

/-- Apply one public operation, discarding the returned envelopes. -/
def applyOp (b : UnprocessedPacketBatches) : BufferOp → UnprocessedPacketBatches
  | .push dp => (b.push dp).2
  | .insert_batch dps => (b.insert_batch dps).2
  | .pop_max => (b.pop_max).2
  | .pop_max_n n => (b.pop_max_n n).2
  | .retain keep newFwd =>
    b.retain fun dp => ({ dp with forwarded := newFwd dp }, keep dp)
  | .clear => b.clear

/-- Every single public operation preserves the invariants. -/
theorem inv_applyOp (b : UnprocessedPacketBatches) (op : BufferOp) (h : Inv b) :
    Inv (applyOp b op) := by
  cases op with
  | push dp => exact inv_push b dp h
  | insert_batch dps => exact inv_insert_batch dps (0, b) h
  | pop_max => exact inv_pop_max b h
  | pop_max_n n => exact inv_pop_max_n b n h
  | retain keep newFwd => exact inv_retain b _ h fun dp => rfl
  | clear => exact inv_clear b

theorem inv_foldl (ops : List BufferOp) :
    ∀ b : UnprocessedPacketBatches, Inv b → Inv (ops.foldl applyOp b) := by
  induction ops with
  | nil => intro b h; exact h
  | cons op t ih => intro b h; exact ih _ (inv_applyOp b op h)

/-! ### Capacity preservation -/

theorem capacity_push_pop_min (b : UnprocessedPacketBatches) (dp : DeserializedPacket) :
    ((b.push_pop_min dp).2).capacity = b.capacity := by
  unfold UnprocessedPacketBatches.push_pop_min UnprocessedPacketBatches.capacity
  unfold MinMaxHeap.push_pop_min
  rcases hq : b.packet_priority_queue.elems with _ | ⟨x, xs⟩ <;> dsimp only <;>
    (repeat' split) <;> rfl

theorem capacity_push (b : UnprocessedPacketBatches) (dp : DeserializedPacket) :
    ((b.push dp).2).capacity = b.capacity := by
  unfold UnprocessedPacketBatches.push
  split
  · rfl
  · split
    · exact capacity_push_pop_min b dp
    · rfl

theorem capacity_pop_max (b : UnprocessedPacketBatches) :
    ((b.pop_max).2).capacity = b.capacity := by
  unfold UnprocessedPacketBatches.pop_max UnprocessedPacketBatches.capacity
  unfold MinMaxHeap.pop_max
  rcases hq : b.packet_priority_queue.elems with _ | ⟨x, xs⟩ <;> rfl

theorem capacity_pop_max_go (k : Nat) :
    ∀ b : UnprocessedPacketBatches,
      ((UnprocessedPacketBatches.pop_max_go k b).2).capacity = b.capacity := by
  induction k with
  | zero => intro b; rfl
  | succ k ih =>
    intro b
    show (match b.pop_max with
      | (some dp, b') =>
        (dp :: (UnprocessedPacketBatches.pop_max_go k b').1,
          (UnprocessedPacketBatches.pop_max_go k b').2)
      | (none, b') => ([], b')).2.capacity = b.capacity
    rcases hp : b.pop_max with ⟨_ | dp, b'⟩
    · have : b'.capacity = b.capacity := by
        have := capacity_pop_max b
        rw [hp] at this
        exact this
      exact this
    · have hcap : b'.capacity = b.capacity := by
        have := capacity_pop_max b
        rw [hp] at this
        exact this
      dsimp only
      rw [ih b', hcap]

theorem capacity_pop_max_n (b : UnprocessedPacketBatches) (n : Nat) :
    ((b.pop_max_n n).2).capacity = b.capacity := by
  unfold UnprocessedPacketBatches.pop_max_n
  split
  · rfl
  · exact capacity_pop_max_go _ b

theorem capacity_insert_batch (dps : List DeserializedPacket) :
    ∀ p : Nat × UnprocessedPacketBatches,
      ((dps.foldl
        (fun acc dp =>
          let pr := acc.2.push dp
          (if pr.1.isSome then acc.1 + 1 else acc.1, pr.2)) p).2).capacity =
      p.2.capacity := by
  induction dps with
  | nil => intro p; rfl
  | cons dp t ih =>
    intro p
    rw [List.foldl_cons, ih]
    exact capacity_push p.2 dp

theorem capacity_applyOp (b : UnprocessedPacketBatches) (op : BufferOp) :
    (applyOp b op).capacity = b.capacity := by
  cases op with
  | push dp => exact capacity_push b dp
  | insert_batch dps => exact capacity_insert_batch dps (0, b)
  | pop_max => exact capacity_pop_max b
  | pop_max_n n => exact capacity_pop_max_n b n
  | retain keep newFwd => rfl
  | clear => rfl

theorem capacity_foldl (ops : List BufferOp) :
    ∀ b : UnprocessedPacketBatches, (ops.foldl applyOp b).capacity = b.capacity := by
  induction ops with
  | nil => intro b; rfl
  | cons op t ih =>
    intro b
    rw [List.foldl_cons, ih, capacity_applyOp]

/-! ### Assoc-list extensionality, for `retain`'s no-op law -/

theorem alNil_of_lookup_none : ∀ {l : HashIndex}, (∀ k, alLookup k l = none) → l = [] := by
  intro l h
  cases l with
  | nil => rfl
  | cons kv t =>
    have := h kv.1
    rw [alLookup, if_pos rfl] at this
    cases this

theorem perm_cons_alRemove {k : Nat} {v : DeserializedPacket} :
    ∀ {l : HashIndex}, (alKeys l).Nodup → (k, v) ∈ l → l.Perm ((k, v) :: alRemove k l) := by
  intro l
  induction l with
  | nil => intro _ h; cases h
  | cons kv t ih =>
    intro hnd hmem
    obtain ⟨hh, ht⟩ := List.nodup_cons.mp (show (kv.1 :: alKeys t).Nodup from hnd)
    rcases List.mem_cons.mp hmem with hmem | hmem
    · have hk1 : kv.1 = k := by rw [← hmem]
      have hkt : k ∉ alKeys t := hk1 ▸ hh
      rw [← hmem]
      have hrm : alRemove k ((k, v) :: t) = t := by
        rw [alRemove, if_pos rfl, alRemove_of_not_mem hkt]
      rw [hrm]
    · have hkt : k ∈ alKeys t := List.mem_map.mpr ⟨_, hmem, rfl⟩
      have hkne : kv.1 ≠ k := fun hkk => hh (hkk ▸ hkt)
      rw [alRemove, if_neg hkne]
      refine List.Perm.trans ((ih ht hmem).cons kv) ?_
      exact List.Perm.swap _ _ _

theorem alPerm_of_lookup_eq :
    ∀ {l1 l2 : HashIndex}, (alKeys l1).Nodup → (alKeys l2).Nodup →
      (∀ k, alLookup k l1 = alLookup k l2) → l1.Perm l2 := by
  intro l1
  induction l1 with
  | nil =>
    intro l2 _ _ h
    have h2 : l2 = [] := alNil_of_lookup_none (fun k => by rw [← h k]; rfl)
    rw [h2]
  | cons kv t ih =>
    intro l2 hnd1 hnd2 h
    obtain ⟨hh, ht⟩ := List.nodup_cons.mp (show (kv.1 :: alKeys t).Nodup from hnd1)
    have hl2 : alLookup kv.1 l2 = some kv.2 := by
      rw [← h kv.1, alLookup, if_pos rfl]
    have hmem2 : (kv.1, kv.2) ∈ l2 := alLookup_mem hl2
    have hperm2 : l2.Perm ((kv.1, kv.2) :: alRemove kv.1 l2) :=
      perm_cons_alRemove hnd2 hmem2
    have hlkeq : ∀ k, alLookup k t = alLookup k (alRemove kv.1 l2) := by
      intro k
      by_cases hk : k = kv.1
      · rw [hk, alLookup_remove_self, (alLookup_eq_none _ _).mpr hh]
      · rw [alLookup_remove_ne (fun hkk => hk hkk), ← h k, alLookup,
          if_neg (fun hkk => hk hkk.symm)]
    have hnd2' : (alKeys (alRemove kv.1 l2)).Nodup := alRemove_keys_nodup hnd2
    have := (ih ht hnd2' hlkeq).cons kv
    exact this.trans hperm2.symm

theorem alValues_eq_keys_map {l : HashIndex} (hnd : (alKeys l).Nodup) :
    l.map (fun kv => kv.2) =
      (alKeys l).map (fun k => (alLookup k l).getD default) := by
  induction l with
  | nil => rfl
  | cons kv t ih =>
    obtain ⟨hh, ht⟩ := List.nodup_cons.mp (show (kv.1 :: alKeys t).Nodup from hnd)
    show kv.2 :: t.map (fun kv => kv.2) = _
    rw [show alKeys (kv :: t) = kv.1 :: alKeys t from rfl, List.map_cons]
    congr 1
    · rw [alLookup, if_pos rfl]
      rfl
    · rw [ih ht]
      refine List.map_congr_left ?_
      intro k hk
      have hkne : kv.1 ≠ k := fun hkk => hh (hkk ▸ hk)
      rw [alLookup, if_neg hkne]

/-! ### Priority-extractor lemmas -/

/-- Is this directive a `SetComputeUnitPrice`? -/
def isPriceDirective : ComputeBudgetDirective → Bool
  | .setComputeUnitPrice _ => true
  | _ => false

/-- Is this directive a `SetComputeUnitLimit`? -/
def isLimitDirective : ComputeBudgetDirective → Bool
  | .setComputeUnitLimit _ => true
  | _ => false

/-- Is this directive a `RequestHeapFrame`? -/
def isHeapDirective : ComputeBudgetDirective → Bool
  | .requestHeapFrame _ => true
  | _ => false

/-- A `RequestHeapFrame` within bounds and alignment (anything else passes
trivially). -/
def validHeapDirective : ComputeBudgetDirective → Prop
  | .requestHeapFrame bytes =>
    MIN_HEAP_FRAME_BYTES ≤ bytes ∧ bytes ≤ MAX_HEAP_FRAME_BYTES ∧ bytes % 1024 = 0
  | _ => True

instance (d : ComputeBudgetDirective) : Decidable (validHeapDirective d) := by
  unfold validHeapDirective
  cases d <;> infer_instance

/-- The message carries no price directive (the claim's hypothesis). -/
def noPriceDirective (m : SanitizedVersionedMessage) : Prop :=
  ∀ d ∈ budgetDirectives m, isPriceDirective d = false

instance (m : SanitizedVersionedMessage) : Decidable (noPriceDirective m) := by
  unfold noPriceDirective
  infer_instance

/-- The message's compute-budget directives are accepted by the extractor: no
duplicate directive kind and only valid heap frames. -/
def acceptedDirectives (m : SanitizedVersionedMessage) : Prop :=
  (budgetDirectives m).countP isLimitDirective ≤ 1 ∧
  (budgetDirectives m).countP isHeapDirective ≤ 1 ∧
  ∀ d ∈ budgetDirectives m, validHeapDirective d

instance (m : SanitizedVersionedMessage) : Decidable (acceptedDirectives m) := by
  unfold acceptedDirectives
  infer_instance

/-- Any successful directive fold starting without a price and seeing no
price directive ends without a price. -/
theorem processFold_fee_none :
    ∀ (l : List ComputeBudgetDirective) (acc acc' : ComputeBudgetAcc),
      (∀ d ∈ l, isPriceDirective d = false) →
      acc.prioritization_fee = none →
      l.foldlM processDirective acc = some acc' →
      acc'.prioritization_fee = none := by
  intro l
  induction l with
  | nil =>
    intro acc acc' _ hfee hfold
    cases hfold
    exact hfee
  | cons d t ih =>
    intro acc acc' hnp hfee hfold
    rw [List.foldlM_cons] at hfold
    rcases hstep : processDirective acc d with _ | acc1
    · rw [hstep] at hfold; cases hfold
    · rw [hstep] at hfold
      have hfee1 : acc1.prioritization_fee = none := by
        cases d with
        | setComputeUnitLimit u =>
          rw [processDirective] at hstep
          split at hstep
          · cases hstep
          · cases hstep; exact hfee
        | setComputeUnitPrice p =>
          have := hnp _ (List.mem_cons_self ..)
          simp [isPriceDirective] at this
        | requestHeapFrame bsz =>
          rw [processDirective] at hstep
          split at hstep
          · cases hstep
          · cases hstep; exact hfee
      exact ih acc1 acc' (fun d' hd' => hnp d' (List.mem_cons_of_mem _ hd')) hfee1 hfold

/-- With no duplicate directive kinds (relative to what the accumulator has
already seen), no price directive, and only valid heap frames, the fold
succeeds, ends without a price, and with a validated heap request. -/
theorem processFold_ok :
    ∀ (l : List ComputeBudgetDirective) (acc : ComputeBudgetAcc),
      (∀ d ∈ l, isPriceDirective d = false) →
      acc.prioritization_fee = none →
      l.countP isLimitDirective + (if acc.requested_units.isSome then 1 else 0) ≤ 1 →
      l.countP isHeapDirective + (if acc.requested_heap_size.isSome then 1 else 0) ≤ 1 →
      (∀ d ∈ l, validHeapDirective d) →
      (∀ bsz, acc.requested_heap_size = some bsz →
        MIN_HEAP_FRAME_BYTES ≤ bsz ∧ bsz ≤ MAX_HEAP_FRAME_BYTES ∧ bsz % 1024 = 0) →
      ∃ acc', l.foldlM processDirective acc = some acc' ∧
        acc'.prioritization_fee = none ∧
        (∀ bsz, acc'.requested_heap_size = some bsz →
          MIN_HEAP_FRAME_BYTES ≤ bsz ∧ bsz ≤ MAX_HEAP_FRAME_BYTES ∧ bsz % 1024 = 0) := by
  intro l
  induction l with
  | nil =>
    intro acc _ hfee _ _ _ hheap
    exact ⟨acc, rfl, hfee, hheap⟩
  | cons d t ih =>
    intro acc hnp hfee hcl hch hval hheap
    rw [List.countP_cons] at hcl hch
    cases d with
    | setComputeUnitLimit u =>
      have hl : isLimitDirective (.setComputeUnitLimit u) = true := rfl
      have hnotsome : acc.requested_units.isSome = false := by
        rcases hu : acc.requested_units with _ | u0
        · rfl
        · exfalso
          rw [hl, hu] at hcl
          simp only [Option.isSome_some, eq_self_iff_true, if_true] at hcl
          omega
      have hstep : processDirective acc (.setComputeUnitLimit u) =
          some { acc with requested_units := some u } := by
        rw [processDirective, hnotsome]
        rfl
      rw [List.foldlM_cons, hstep]
      refine ih { acc with requested_units := some u }
        (fun d' hd' => hnp d' (List.mem_cons_of_mem _ hd')) hfee ?_ ?_
        (fun d' hd' => hval d' (List.mem_cons_of_mem _ hd')) hheap
      · show t.countP isLimitDirective + (if true = true then 1 else 0) ≤ 1
        rw [hl] at hcl
        simp only [eq_self_iff_true, if_true] at hcl ⊢
        omega
      · show t.countP isHeapDirective +
          (if acc.requested_heap_size.isSome = true then 1 else 0) ≤ 1
        omega
    | setComputeUnitPrice p =>
      have := hnp _ (List.mem_cons_self ..)
      simp [isPriceDirective] at this
    | requestHeapFrame bsz =>
      have hl : isHeapDirective (.requestHeapFrame bsz) = true := rfl
      have hnotsome : acc.requested_heap_size.isSome = false := by
        rcases hu : acc.requested_heap_size with _ | b0
        · rfl
        · exfalso
          rw [hl, hu] at hch
          simp only [Option.isSome_some, eq_self_iff_true, if_true] at hch
          omega
      have hstep : processDirective acc (.requestHeapFrame bsz) =
          some { acc with requested_heap_size := some bsz } := by
        rw [processDirective, hnotsome]
        rfl
      rw [List.foldlM_cons, hstep]
      refine ih { acc with requested_heap_size := some bsz }
        (fun d' hd' => hnp d' (List.mem_cons_of_mem _ hd')) hfee ?_ ?_
        (fun d' hd' => hval d' (List.mem_cons_of_mem _ hd')) ?_
      · show t.countP isLimitDirective +
          (if acc.requested_units.isSome = true then 1 else 0) ≤ 1
        omega
      · show t.countP isHeapDirective + (if true = true then 1 else 0) ≤ 1
        rw [hl] at hch
        simp only [eq_self_iff_true, if_true] at hch ⊢
        omega
      · intro bsz' hbsz'
        have hb : bsz = bsz' := by simpa using hbsz'
        rw [← hb]
        have := hval _ (List.mem_cons_self ..)
        simpa [validHeapDirective] using this

/-! ### `batch_limit` preservation -/

theorem batch_limit_push_pop_min (b : UnprocessedPacketBatches) (dp : DeserializedPacket) :
    ((b.push_pop_min dp).2).batch_limit = b.batch_limit := by
  unfold UnprocessedPacketBatches.push_pop_min MinMaxHeap.push_pop_min
  rcases hq : b.packet_priority_queue.elems with _ | ⟨x, xs⟩ <;> dsimp only <;>
    (repeat' split) <;> rfl

theorem batch_limit_push (b : UnprocessedPacketBatches) (dp : DeserializedPacket) :
    ((b.push dp).2).batch_limit = b.batch_limit := by
  unfold UnprocessedPacketBatches.push
  split
  · rfl
  · split
    · exact batch_limit_push_pop_min b dp
    · rfl

theorem batch_limit_pop_max (b : UnprocessedPacketBatches) :
    ((b.pop_max).2).batch_limit = b.batch_limit := by
  unfold UnprocessedPacketBatches.pop_max MinMaxHeap.pop_max
  rcases hq : b.packet_priority_queue.elems with _ | ⟨x, xs⟩ <;> rfl

theorem batch_limit_pop_max_go (k : Nat) :
    ∀ b : UnprocessedPacketBatches,
      ((UnprocessedPacketBatches.pop_max_go k b).2).batch_limit = b.batch_limit := by
  induction k with
  | zero => intro b; rfl
  | succ k ih =>
    intro b
    show (match b.pop_max with
      | (some dp, b') =>
        (dp :: (UnprocessedPacketBatches.pop_max_go k b').1,
          (UnprocessedPacketBatches.pop_max_go k b').2)
      | (none, b') => ([], b')).2.batch_limit = b.batch_limit
    rcases hp : b.pop_max with ⟨_ | dp, b'⟩
    · have : b'.batch_limit = b.batch_limit := by
        have := batch_limit_pop_max b
        rw [hp] at this
        exact this
      exact this
    · have hbl : b'.batch_limit = b.batch_limit := by
        have := batch_limit_pop_max b
        rw [hp] at this
        exact this
      dsimp only
      rw [ih b', hbl]

theorem batch_limit_pop_max_n (b : UnprocessedPacketBatches) (n : Nat) :
    ((b.pop_max_n n).2).batch_limit = b.batch_limit := by
  unfold UnprocessedPacketBatches.pop_max_n
  split
  · rfl
  · exact batch_limit_pop_max_go _ b

theorem batch_limit_insert_batch (dps : List DeserializedPacket) :
    ∀ p : Nat × UnprocessedPacketBatches,
      ((dps.foldl
        (fun acc dp =>
          let pr := acc.2.push dp
          (if pr.1.isSome then acc.1 + 1 else acc.1, pr.2)) p).2).batch_limit =
      p.2.batch_limit := by
  induction dps with
  | nil => intro p; rfl
  | cons dp t ih =>
    intro p
    rw [List.foldl_cons, ih]
    exact batch_limit_push p.2 dp

theorem batch_limit_applyOp (b : UnprocessedPacketBatches) (op : BufferOp) :
    (applyOp b op).batch_limit = b.batch_limit := by
  cases op with
  | push dp => exact batch_limit_push b dp
  | insert_batch dps => exact batch_limit_insert_batch dps (0, b)
  | pop_max => exact batch_limit_pop_max b
  | pop_max_n n => exact batch_limit_pop_max_n b n
  | retain keep newFwd => rfl
  | clear => rfl

theorem batch_limit_foldl (ops : List BufferOp) :
    ∀ b : UnprocessedPacketBatches, (ops.foldl applyOp b).batch_limit = b.batch_limit := by
  induction ops with
  | nil => intro b; rfl
  | cons op t ih =>
    intro b
    rw [List.foldl_cons, ih, batch_limit_applyOp]

/-! ### Example data for the witnesses -/

/-- A hand-built envelope with the given hash, priority and sender stake. -/
def mkPacketEnv (h pr stake : Nat) : DeserializedPacket :=
  ⟨⟨⟨[], ⟨stake, false⟩⟩, ⟨1, ⟨[]⟩⟩, h, false, pr⟩, false⟩

def pktA : DeserializedPacket := mkPacketEnv 100 10 5

def pktB : DeserializedPacket := mkPacketEnv 200 3 2

def pktC : DeserializedPacket := mkPacketEnv 300 1 1

def pktD : DeserializedPacket := mkPacketEnv 400 3 2

/-- A full capacity-2 buffer holding `pktA` and `pktB`. -/
def bufEx : UnprocessedPacketBatches :=
  ⟨⟨[pktA.immutable_section, pktB.immutable_section], 2⟩,
    [(100, pktA), (200, pktB)], 2⟩

def opsEx : List BufferOp :=
  [.push pktA, .insert_batch [pktB, pktC], .pop_max,
   .retain (fun dp => decide (2 ≤ dp.immutable_section.priority)) (fun _ => true),
   .pop_max_n 1, .push pktD, .clear, .push pktC]

/-! ### The claims -/

/-- C1: starting from `with_capacity c` with `c ≥ 1`, every sequence of public
operations (push, insert_batch, pop_max, pop_max_n, retain, clear) preserves
the buffer invariants: heap and index have the same number of elements, every
heap record corresponds to exactly one index entry with its message hash (so
hashes are unique across the buffer), and the element count never exceeds the
capacity fixed at construction (`batch_limit`, which stays equal to `c`). -/
theorem claim_C1 (c : Nat) (ops : List BufferOp) (hc : 1 ≤ c) :
    Inv (ops.foldl applyOp (UnprocessedPacketBatches.with_capacity c)) ∧
    (ops.foldl applyOp (UnprocessedPacketBatches.with_capacity c)).batch_limit = c := by
  have _ := hc
  exact ⟨inv_foldl ops _ (inv_with_capacity c), batch_limit_foldl ops _⟩

theorem claim_C1_witness :
    1 ≤ 2 ∧
      (Inv (opsEx.foldl applyOp (UnprocessedPacketBatches.with_capacity 2)) ∧
        (opsEx.foldl applyOp (UnprocessedPacketBatches.with_capacity 2)).batch_limit = 2) :=
  ⟨by decide, claim_C1 2 opsEx (by decide)⟩

/-- C2: pushing an envelope whose message hash is already a key of the index
returns `None` and leaves the entire buffer (heap, index, length) unchanged,
regardless of fill level, priority or stake. -/
theorem claim_C2 (b : UnprocessedPacketBatches) (dp : DeserializedPacket)
    (h : dp.immutable_section.message_hash ∈ alKeys b.message_hash_to_transaction) :
    b.push dp = (none, b) := by
  have hc : alContains dp.immutable_section.message_hash
      b.message_hash_to_transaction = true := by
    rcases ho : alLookup dp.immutable_section.message_hash
        b.message_hash_to_transaction with _ | v
    · exact absurd h ((alLookup_eq_none _ _).mp ho)
    · rw [alContains, ho]
      rfl
  unfold UnprocessedPacketBatches.push
  rw [if_pos hc]

theorem claim_C2_witness :
    (pktA.immutable_section.message_hash ∈ alKeys bufEx.message_hash_to_transaction) ∧
    bufEx.push pktA = (none, bufEx) :=
  ⟨by decide, claim_C2 bufEx pktA (by decide)⟩

/-- The conclusion of C3, abbreviated for the witness. -/
def pushFullProp (b : UnprocessedPacketBatches) (dp : DeserializedPacket) : Prop :=
  ∃ y, (b.push dp).1 = some y ∧
    pktLe y.immutable_section dp.immutable_section ∧
    (y = dp → (b.push dp).2 = b) ∧
    (y ≠ dp →
      alLookup dp.immutable_section.message_hash
        (b.push dp).2.message_hash_to_transaction = some dp ∧
      alLookup y.immutable_section.message_hash
        (b.push dp).2.message_hash_to_transaction = none)

/-- C3: on a full buffer, pushing a fresh-hash envelope `x` returns
`Some y` with `y ≤ x` under the (priority, sender_stake) order; if `y ≠ x`
then `x` is resident afterwards and `y` is not, and if `y = x` the buffer is
unchanged (`x` was not inserted). -/
theorem claim_C3 (b : UnprocessedPacketBatches) (dp : DeserializedPacket)
    (hInv : Inv b) (hfull : b.len = b.batch_limit)
    (hnew : dp.immutable_section.message_hash ∉ alKeys b.message_hash_to_transaction) :
    pushFullProp b dp := by
  have hc : ¬ alContains dp.immutable_section.message_hash
      b.message_hash_to_transaction = true := by
    intro hcc
    rw [alContains] at hcc
    rcases ho : alLookup dp.immutable_section.message_hash
        b.message_hash_to_transaction with _ | v
    · rw [ho] at hcc; cases hcc
    · exact hnew (mem_keys_of_lookup ho)
  have hpush : b.push dp = (some (b.push_pop_min dp).1, (b.push_pop_min dp).2) := by
    unfold UnprocessedPacketBatches.push
    rw [if_neg hc, if_pos hfull]
  obtain ⟨hle, _, _, _, hor⟩ := push_pop_min_spec b dp hInv hnew
  refine ⟨(b.push_pop_min dp).1, by rw [hpush], hle, ?_, ?_⟩
  · intro hy
    rw [hpush]
    rcases hor with ⟨_, h2⟩ | ⟨h1, _⟩
    · exact h2
    · exact absurd hy h1
  · intro hy
    rw [hpush]
    rcases hor with ⟨h1, _⟩ | ⟨_, h2, h3⟩
    · exact absurd h1 hy
    · exact ⟨h2, h3⟩

theorem claim_C3_witness :
    (Inv bufEx ∧ bufEx.len = bufEx.batch_limit ∧
      pktC.immutable_section.message_hash ∉ alKeys bufEx.message_hash_to_transaction) ∧
    pushFullProp bufEx pktC :=
  ⟨⟨by decide, by decide, by decide⟩,
    claim_C3 bufEx pktC (by decide) (by decide) (by decide)⟩

/-- The conclusion of C4, abbreviated for the witness. -/
def popMaxNProp (b : UnprocessedPacketBatches) (n : Nat) : Prop :=
  (b.is_empty = true → (b.pop_max_n n).1 = none) ∧
  (b.is_empty = false → ∃ l, (b.pop_max_n n).1 = some l ∧
    l.length = min b.len n ∧
    l.Pairwise (fun d1 d2 => pktLe d2.immutable_section d1.immutable_section)) ∧
  (∀ d1 b1 d2 b2, b.pop_max = (some d1, b1) → b1.pop_max = (some d2, b2) →
    pktLe d2.immutable_section d1.immutable_section)

/-- C4: `pop_max_n n` returns `None` on an empty buffer (even for `n = 0`);
on a non-empty buffer it returns `Some` of exactly `min(len, n)` envelopes in
non-increasing (priority, sender_stake) order; and between two `pop_max`
calls with no intervening mutation the second envelope is `≤` the first. -/
theorem claim_C4 (b : UnprocessedPacketBatches) (n : Nat) (hInv : Inv b) :
    popMaxNProp b n := by
  refine ⟨?_, ?_, ?_⟩
  · intro he
    unfold UnprocessedPacketBatches.pop_max_n
    rw [if_pos he]
  · intro he
    have hmin : min b.len n ≤ b.packet_priority_queue.elems.length :=
      Nat.min_le_left _ _
    obtain ⟨hlen, _, _, _, hpair⟩ := pop_max_go_spec (min b.len n) b hInv hmin
    refine ⟨(UnprocessedPacketBatches.pop_max_go (min b.len n) b).1, ?_, hlen, hpair⟩
    unfold UnprocessedPacketBatches.pop_max_n
    rw [if_neg (show ¬ b.is_empty = true by rw [he]; exact Bool.false_ne_true)]
  · intro d1 b1 d2 b2 h1 h2
    rcases hq : b.packet_priority_queue.elems with _ | ⟨x, xs⟩
    · rw [pop_max_empty b hq] at h1
      injection h1 with ha _
      cases ha
    · obtain ⟨dpm, hres, hdpmimm, hInv1, _⟩ := pop_max_spec b hInv x xs hq
      rw [hres] at h1 hInv1
      injection h1 with ha hb
      injection ha with hd1
      rcases hq1 : b1.packet_priority_queue.elems with _ | ⟨x', xs'⟩
      · rw [pop_max_empty b1 hq1] at h2
        injection h2 with ha2 _
        cases ha2
      · have hInvb1 : Inv b1 := by rw [← hb]; exact hInv1
        obtain ⟨dpm2, hres2, hdpmimm2, _, _⟩ := pop_max_spec b1 hInvb1 x' xs' hq1
        rw [hres2] at h2
        injection h2 with ha2 _
        injection ha2 with hd2
        have hmem2 : d2.immutable_section ∈ x' :: xs' := by
          rw [← hd2, hdpmimm2]
          exact selMax_mem x' xs'
        have hmemb1 : d2.immutable_section ∈ b1.packet_priority_queue.elems := by
          rw [hq1]; exact hmem2
        have hmemerase : d2.immutable_section ∈ (x :: xs).erase (selMax x xs) := by
          have hb1e : b1.packet_priority_queue.elems =
              (x :: xs).erase (selMax x xs) := by
            rw [← hb]
          rw [hb1e] at hmemb1
          exact hmemb1
        have hmemorig : d2.immutable_section ∈ x :: xs :=
          List.mem_of_mem_erase hmemerase
        rw [← hd1, hdpmimm]
        exact le_selMax x xs _ hmemorig

theorem claim_C4_witness : Inv bufEx ∧ popMaxNProp bufEx 1 :=
  ⟨by decide, claim_C4 bufEx 1 (by decide)⟩

/-- The current minimal record of the heap (as `push_pop_min` selects it). -/
def currentMin (b : UnprocessedPacketBatches) : Option ImmutableDeserializedPacket :=
  match b.packet_priority_queue.elems with
  | [] => none
  | x :: xs => some (selMin x xs)

/-- C5: pushing a fresh-hash envelope whose (priority, sender_stake) pair
equals that of the buffer's current minimum into a full buffer treats the
incoming envelope itself as the minimum: it is returned unchanged and the
buffer is exactly as before (the resident equal-ordered element is not
evicted). -/
theorem claim_C5 (b : UnprocessedPacketBatches) (dp : DeserializedPacket)
    (m : ImmutableDeserializedPacket)
    (hfull : b.len = b.batch_limit)
    (hnew : dp.immutable_section.message_hash ∉ alKeys b.message_hash_to_transaction)
    (hmin : currentMin b = some m)
    (hpr : dp.immutable_section.priority = m.priority)
    (hst : dp.immutable_section.sender_stake = m.sender_stake) :
    b.push dp = (some dp, b) := by
  have hc : ¬ alContains dp.immutable_section.message_hash
      b.message_hash_to_transaction = true := by
    intro hcc
    rw [alContains] at hcc
    rcases ho : alLookup dp.immutable_section.message_hash
        b.message_hash_to_transaction with _ | v
    · rw [ho] at hcc; cases hcc
    · exact hnew (mem_keys_of_lookup ho)
  rcases hq : b.packet_priority_queue.elems with _ | ⟨x, xs⟩
  · unfold currentMin at hmin
    rw [hq] at hmin
    cases hmin
  · have hm : m = selMin x xs := by
      unfold currentMin at hmin
      rw [hq] at hmin
      injection hmin with h'
      exact h'.symm
    have hle : pktLe dp.immutable_section (selMin x xs) := by
      rw [← hm]
      exact Or.inr ⟨hpr, le_of_eq hst⟩
    have hres : b.push_pop_min dp = (dp, b) := by
      unfold UnprocessedPacketBatches.push_pop_min MinMaxHeap.push_pop_min
      rw [hq]
      simp [hle]
    unfold UnprocessedPacketBatches.push
    rw [if_neg hc, if_pos hfull, hres]

theorem claim_C5_witness :
    (bufEx.len = bufEx.batch_limit ∧
      pktD.immutable_section.message_hash ∉ alKeys bufEx.message_hash_to_transaction ∧
      currentMin bufEx = some pktB.immutable_section ∧
      pktD.immutable_section.priority = pktB.immutable_section.priority ∧
      pktD.immutable_section.sender_stake = pktB.immutable_section.sender_stake) ∧
    bufEx.push pktD = (some pktD, bufEx) :=
  ⟨by decide, claim_C5 bufEx pktD pktB.immutable_section
    (by decide) (by decide) (by decide) (by decide) (by decide)⟩

/-- A pure keep-predicate lifted to the model's mutable-predicate shape. -/
def liftPred (p : DeserializedPacket → Bool) :
    DeserializedPacket → DeserializedPacket × Bool :=
  fun dp => (dp, p dp)

/-- The general conclusion of C6 for an arbitrary pure predicate. -/
def retainProp (b : UnprocessedPacketBatches) (p : DeserializedPacket → Bool) : Prop :=
  (b.retainTrace (liftPred p)).Perm
    (b.message_hash_to_transaction.map fun kv => kv.2) ∧
  (∀ k, alLookup k (b.retain (liftPred p)).message_hash_to_transaction =
    (alLookup k b.message_hash_to_transaction).bind
      fun dp => if p dp then some dp else none) ∧
  Inv (b.retain (liftPred p))

/-- The constant-predicate conclusions of C6. -/
def retainConstProp (b : UnprocessedPacketBatches) : Prop :=
  ((b.retain (liftPred fun _ => true)).message_hash_to_transaction).Perm
    b.message_hash_to_transaction ∧
  (b.retain (liftPred fun _ => true)).packet_priority_queue.elems =
    b.packet_priority_queue.elems ∧
  (b.retain (liftPred fun _ => false)).packet_priority_queue.elems = [] ∧
  (b.retain (liftPred fun _ => false)).message_hash_to_transaction = []

/-- The `retain` with a pure predicate: the predicate trace is a permutation of
the index's envelopes (exactly once each), the surviving index entries are
exactly those the predicate keeps, and the invariants still hold. -/
theorem retain_char (b : UnprocessedPacketBatches) (p : DeserializedPacket → Bool)
    (hInv : Inv b) : retainProp b p := by
  obtain ⟨hlen, hperm, hnd, hkey, hcoh, hcap⟩ := hInv
  have hnd0 : (b.packet_priority_queue.elems.map fun m => m.message_hash).Nodup := hnd
  have hsome : ∀ m ∈ b.packet_priority_queue.elems,
      (alLookup m.message_hash b.message_hash_to_transaction).isSome := by
    intro m hm
    have hch := hcoh m hm
    rcases ho : alLookup m.message_hash b.message_hash_to_transaction with _ | v
    · rw [ho] at hch; cases hch
    · rfl
  obtain ⟨hq', htr, hlook⟩ := retainGo_spec (liftPred p) b.packet_priority_queue.elems
    b.message_hash_to_transaction hnd0 hsome
  have hkeysnd : (alKeys b.message_hash_to_transaction).Nodup := hperm.nodup_iff.mp hnd
  refine ⟨?_, ?_, inv_retain b (liftPred p) ⟨hlen, hperm, hnd, hkey, hcoh, hcap⟩
    (fun dp => rfl)⟩
  · show ((retainGo (liftPred p) b.packet_priority_queue.elems
      b.message_hash_to_transaction).2.2).Perm _
    rw [htr]
    have hmm : b.packet_priority_queue.elems.map
        (fun m => (alLookup m.message_hash b.message_hash_to_transaction).getD default) =
        (b.packet_priority_queue.elems.map fun m => m.message_hash).map
          (fun k => (alLookup k b.message_hash_to_transaction).getD default) := by
      rw [List.map_map]
      rfl
    rw [hmm, alValues_eq_keys_map hkeysnd]
    exact hperm.map _
  · intro k
    show alLookup k (retainGo (liftPred p) b.packet_priority_queue.elems
      b.message_hash_to_transaction).2.1 = _
    rw [hlook k]
    by_cases hk : k ∈ b.packet_priority_queue.elems.map fun m => m.message_hash
    · rw [if_pos hk]
      rfl
    · rw [if_neg hk]
      have hnone : alLookup k b.message_hash_to_transaction = none :=
        (alLookup_eq_none k _).mpr (fun hkk => hk (hperm.mem_iff.mpr hkk))
      rw [hnone]
      rfl

/-- C6: `retain` invokes the predicate exactly once on every envelope in the
buffer, removes exactly the envelopes it rejects, and keeps the invariants;
the constant-true predicate leaves the observable state (heap elements, index
entries up to permutation) unchanged, and the constant-false predicate
empties both structures. -/
theorem claim_C6 (b : UnprocessedPacketBatches) (p : DeserializedPacket → Bool)
    (hInv : Inv b) : retainProp b p ∧ retainConstProp b := by
  obtain ⟨hlen, hperm, hnd, hkey, hcoh, hcap⟩ := hInv
  have hInv' : Inv b := ⟨hlen, hperm, hnd, hkey, hcoh, hcap⟩
  have hnd0 : (b.packet_priority_queue.elems.map fun m => m.message_hash).Nodup := hnd
  have hsome : ∀ m ∈ b.packet_priority_queue.elems,
      (alLookup m.message_hash b.message_hash_to_transaction).isSome := by
    intro m hm
    have hch := hcoh m hm
    rcases ho : alLookup m.message_hash b.message_hash_to_transaction with _ | v
    · rw [ho] at hch; cases hch
    · rfl
  have hkeysnd : (alKeys b.message_hash_to_transaction).Nodup := hperm.nodup_iff.mp hnd
  refine ⟨retain_char b p hInv', ?_, ?_, ?_, ?_⟩
  · -- const-true: index entries unchanged up to permutation
    obtain ⟨_, hlookT, hInvT⟩ := retain_char b (fun _ => true) hInv'
    obtain ⟨_, hpermT, hndT, _, _, _⟩ := hInvT
    have hkeysT : (alKeys (b.retain (liftPred fun _ => true)).message_hash_to_transaction).Nodup :=
      hpermT.nodup_iff.mp hndT
    refine alPerm_of_lookup_eq hkeysT hkeysnd ?_
    intro k
    rw [hlookT k]
    rcases ho : alLookup k b.message_hash_to_transaction with _ | dp
    · rfl
    · rfl
  · -- const-true: heap elements literally unchanged
    obtain ⟨hq', _, _⟩ := retainGo_spec (liftPred fun _ => true)
      b.packet_priority_queue.elems b.message_hash_to_transaction hnd0 hsome
    show (retainGo (liftPred fun _ => true) b.packet_priority_queue.elems
      b.message_hash_to_transaction).1 = _
    rw [hq']
    refine List.filter_eq_self.mpr ?_
    intro m hm
    rw [keptAt]
    rcases ho : alLookup m.message_hash b.message_hash_to_transaction with _ | dp
    · have := hsome m hm
      rw [ho] at this
      cases this
    · rfl
  · -- const-false: heap emptied
    obtain ⟨hq', _, _⟩ := retainGo_spec (liftPred fun _ => false)
      b.packet_priority_queue.elems b.message_hash_to_transaction hnd0 hsome
    show (retainGo (liftPred fun _ => false) b.packet_priority_queue.elems
      b.message_hash_to_transaction).1 = _
    rw [hq']
    have hfc : b.packet_priority_queue.elems.filter
        (fun m => keptAt (liftPred fun _ => false)
          b.message_hash_to_transaction m.message_hash) =
        b.packet_priority_queue.elems.filter (fun _ => false) := by
      refine List.filter_congr ?_
      intro m _
      rw [keptAt]
      rcases alLookup m.message_hash b.message_hash_to_transaction with _ | dp <;> rfl
    rw [hfc, List.filter_false]
  · -- const-false: index emptied
    obtain ⟨_, hlookF, _⟩ := retain_char b (fun _ => false) hInv'
    refine alNil_of_lookup_none ?_
    intro k
    rw [hlookF k]
    rcases alLookup k b.message_hash_to_transaction with _ | dp <;> rfl

theorem claim_C6_witness :
    Inv bufEx ∧
      (retainProp bufEx (fun dp => decide (5 ≤ dp.immutable_section.priority)) ∧
        retainConstProp bufEx) :=
  ⟨by decide, claim_C6 bufEx (fun dp => decide (5 ≤ dp.immutable_section.priority))
    (by decide)⟩

/-- C7: for a buffer built by `with_capacity c`, `capacity()` returns `c` and
is unchanged by every operation; after `clear()` the buffer is empty
(`is_empty` true, `len` 0) and `capacity()` is the same as before the
clear. -/
theorem claim_C7 (c : Nat) (ops : List BufferOp) :
    (ops.foldl applyOp (UnprocessedPacketBatches.with_capacity c)).capacity = c ∧
    ((ops.foldl applyOp (UnprocessedPacketBatches.with_capacity c)).clear).is_empty
      = true ∧
    ((ops.foldl applyOp (UnprocessedPacketBatches.with_capacity c)).clear).len = 0 ∧
    ((ops.foldl applyOp (UnprocessedPacketBatches.with_capacity c)).clear).capacity =
      (ops.foldl applyOp (UnprocessedPacketBatches.with_capacity c)).capacity := by
  refine ⟨?_, rfl, rfl, rfl⟩
  rw [capacity_foldl]
  rfl

/-- The checked-arithmetic pipeline of `packet_message`, written as one
guard. -/
theorem packet_message_checked (data : List Nat) (n sz : Nat) :
    (checked_mul n SIGNATURE_SIZE).bind
      (fun v => (checked_add v sz).bind (fun s => sliceFrom data s)) =
    (if n * SIGNATURE_SIZE < USIZE_LIMIT ∧ n * SIGNATURE_SIZE + sz < USIZE_LIMIT ∧
        n * SIGNATURE_SIZE + sz ≤ data.length
      then some (data.drop (n * SIGNATURE_SIZE + sz)) else none) := by
  unfold checked_mul checked_add sliceFrom
  by_cases h1 : n * SIGNATURE_SIZE < USIZE_LIMIT
  · rw [if_pos h1]
    show (if n * SIGNATURE_SIZE + sz < USIZE_LIMIT
        then some (n * SIGNATURE_SIZE + sz) else none).bind
      (fun s => if s ≤ data.length then some (data.drop s) else none) = _
    by_cases h2 : n * SIGNATURE_SIZE + sz < USIZE_LIMIT
    · rw [if_pos h2]
      show (if n * SIGNATURE_SIZE + sz ≤ data.length
          then some (data.drop (n * SIGNATURE_SIZE + sz)) else none) = _
      by_cases h3 : n * SIGNATURE_SIZE + sz ≤ data.length
      · rw [if_pos h3, if_pos ⟨h1, h2, h3⟩]
      · rw [if_neg h3, if_neg (fun hh => h3 hh.2.2)]
    · rw [if_neg h2]
      show (none : Option (List Nat)) = _
      rw [if_neg (fun hh => h2 hh.2.1)]
  · rw [if_neg h1]
    show (none : Option (List Nat)) = _
    rw [if_neg (fun hh => h1 hh.1)]

/-- The conclusion of C8, abbreviated for the witness. -/
def packetMessageProp (p : Packet) : Prop :=
  (packet_message p = .error .ShortVecError ↔ decode_shortu16_len p.data = none) ∧
  (∀ n sz, decode_shortu16_len p.data = some (n, sz) →
    ((packet_message p = .ok (p.data.drop (n * SIGNATURE_SIZE + sz)) ↔
        (n * SIGNATURE_SIZE < USIZE_LIMIT ∧ n * SIGNATURE_SIZE + sz < USIZE_LIMIT ∧
          n * SIGNATURE_SIZE + sz ≤ p.data.length)) ∧
      (packet_message p = .error (.SignatureOverflowed sz) ↔
        ¬(n * SIGNATURE_SIZE < USIZE_LIMIT ∧ n * SIGNATURE_SIZE + sz < USIZE_LIMIT ∧
          n * SIGNATURE_SIZE + sz ≤ p.data.length))))

/-- C8: `packet_message` returns the sub-slice starting at `n * 64 +
prefix_size` computed with checked arithmetic; it fails with the short-vec
error exactly when the prefix cannot be decoded, and with
`SignatureOverflowed prefix_size` exactly when the computed start overflows
`usize` or exceeds the buffer length. -/
theorem claim_C8 (p : Packet) : packetMessageProp p := by
  unfold packetMessageProp packet_message
  rcases hd : decode_shortu16_len p.data with _ | ⟨n, sz⟩
  · refine ⟨⟨fun _ => rfl, fun _ => rfl⟩, ?_⟩
    intro n sz h
    exact Option.noConfusion h
  · dsimp only
    rw [packet_message_checked p.data n sz]
    constructor
    · constructor
      · intro h
        by_cases hcond : n * SIGNATURE_SIZE < USIZE_LIMIT ∧
            n * SIGNATURE_SIZE + sz < USIZE_LIMIT ∧
            n * SIGNATURE_SIZE + sz ≤ p.data.length
        · rw [if_pos hcond] at h
          exact Except.noConfusion h
        · rw [if_neg hcond] at h
          injection h with h'
          exact DeserializedPacketError.noConfusion h'
      · intro h
        exact Option.noConfusion h
    · intro n' sz' heq
      injection heq with heq'
      injection heq' with hn hsz
      subst hn
      subst hsz
      by_cases hcond : n * SIGNATURE_SIZE < USIZE_LIMIT ∧
          n * SIGNATURE_SIZE + sz < USIZE_LIMIT ∧
          n * SIGNATURE_SIZE + sz ≤ p.data.length
      · rw [if_pos hcond]
        refine ⟨⟨fun _ => hcond, fun _ => rfl⟩, ?_, ?_⟩
        · intro h
          exact Except.noConfusion h
        · intro h
          exact absurd hcond h
      · rw [if_neg hcond]
        refine ⟨⟨?_, fun hc => absurd hc hcond⟩, fun _ => hcond, fun _ => rfl⟩
        intro h
        exact Except.noConfusion h

def c8Packet : Packet := ⟨1 :: List.replicate 64 0, ⟨0, false⟩⟩

theorem claim_C8_witness :
    decode_shortu16_len c8Packet.data = some (1, 1) ∧
    packet_message c8Packet = .ok [] := by
  have h := claim_C8 c8Packet
  refine ⟨by decide, ?_⟩
  have h2 := ((h.2 1 1 (by decide)).1).mpr (by decide)
  rw [show c8Packet.data.drop (1 * SIGNATURE_SIZE + 1) = [] from by decide] at h2
  exact h2

/-- A message whose only compute-budget directive is an invalid
`RequestHeapFrame` (1 KiB, below the 32 KiB minimum): no price directive is
present, yet the extractor errors instead of yielding priority 0. -/
def c9BadMsg : SanitizedVersionedMessage :=
  ⟨[.computeBudget (.requestHeapFrame 1024)]⟩

/-- C9 counterexample: `c9BadMsg` contains no `SetComputeUnitPrice` directive,
yet `get_priority` fails (returns `none`, i.e. `PrioritizationFailure`) rather
than succeeding with priority 0 — refuting the claim as stated. -/
theorem claim_C9_counterexample :
    noPriceDirective c9BadMsg ∧ get_priority c9BadMsg = none ∧
    ¬ get_priority c9BadMsg = some 0 := by decide

/-- C9 (amended): for a sanitized message with no `SetComputeUnitPrice`
directive, the extractor yields 0 whenever it succeeds; and when its
compute-budget directives are otherwise accepted (no duplicated directive
kind, heap frames within bounds and 1024-aligned — e.g. a single valid
32 KiB `RequestHeapFrame`), it does succeed, with priority 0. -/
theorem claim_C9 (msg : SanitizedVersionedMessage) (hnp : noPriceDirective msg) :
    (∀ v, get_priority msg = some v → v = 0) ∧
    (acceptedDirectives msg → get_priority msg = some 0) := by
  constructor
  · intro v hv
    unfold get_priority at hv
    rcases hf : (budgetDirectives msg).foldlM processDirective ⟨none, none, none⟩
      with _ | acc
    · rw [hf] at hv; cases hv
    · rw [hf] at hv
      dsimp only at hv
      have hfee : acc.prioritization_fee = none :=
        processFold_fee_none _ _ _ hnp rfl hf
      have hpr : accPriority msg acc = 0 := by
        unfold accPriority
        rw [hfee]
      rcases hh : acc.requested_heap_size with _ | bytes
      · rw [hh] at hv
        rw [hpr] at hv
        exact (Option.some.inj hv).symm
      · rw [hh] at hv
        dsimp only at hv
        by_cases hcnd : bytes < MIN_HEAP_FRAME_BYTES ∨ MAX_HEAP_FRAME_BYTES < bytes ∨
            bytes % 1024 ≠ 0
        · rw [if_pos hcnd] at hv
          cases hv
        · rw [if_neg hcnd, hpr] at hv
          exact (Option.some.inj hv).symm
  · intro hacc
    obtain ⟨hcl, hch, hval⟩ := hacc
    obtain ⟨acc, hfold, hfee, hheap⟩ := processFold_ok (budgetDirectives msg)
      ⟨none, none, none⟩ hnp rfl (by simpa using hcl) (by simpa using hch) hval
      (by intro bsz h; cases h)
    unfold get_priority
    rw [hfold]
    dsimp only
    have hpr : accPriority msg acc = 0 := by
      unfold accPriority
      rw [hfee]
    rcases hh : acc.requested_heap_size with _ | bytes
    · rw [hpr]
    · have hvb := hheap bytes hh
      show (if bytes < MIN_HEAP_FRAME_BYTES ∨ MAX_HEAP_FRAME_BYTES < bytes ∨
          bytes % 1024 ≠ 0 then none else some (accPriority msg acc)) = some 0
      rw [if_neg ?_, hpr]
      push_neg
      exact ⟨hvb.1, hvb.2.1, hvb.2.2⟩

/-- The message of the repository's own test
`test_get_priority_with_valid_request_heap_frame_tx`: a single valid 32 KiB
`RequestHeapFrame` plus an ordinary instruction. -/
def c9GoodMsg : SanitizedVersionedMessage :=
  ⟨[.computeBudget (.requestHeapFrame (32 * 1024)), .other 0]⟩

theorem claim_C9_witness :
    noPriceDirective c9GoodMsg ∧
      ((∀ v, get_priority c9GoodMsg = some v → v = 0) ∧
        (acceptedDirectives c9GoodMsg → get_priority c9GoodMsg = some 0)) :=
  ⟨by decide, claim_C9 c9GoodMsg (by decide)⟩

/-- C10: every envelope produced by `DeserializedPacket::new` /
`new_internal` has `forwarded` initialized to `false`; no construction path
yields a `forwarded = true` envelope. -/
theorem claim_C10 (packet : Packet) (priority : Option Nat) :
    forwardedFlag (DeserializedPacket.new_internal packet priority) = false ∧
    forwardedFlag (DeserializedPacket.new packet) = false := by
  constructor
  · unfold DeserializedPacket.new_internal
    dsimp only
    (repeat' split) <;> rfl
  · unfold DeserializedPacket.new DeserializedPacket.new_internal
    dsimp only
    (repeat' split) <;> rfl

end SolanaBuffer
